import Mathlib

/-!
Verification of the releasebot repository's specified behaviour.

The definitions below are shallow embeddings of the Go sources:
  * Releasebot.Semver        — internal/semver/semver.go
  * Releasebot.Workflows     — internal/github/workflows.go (plus the glob
                               matcher of Go's path/filepath.Match that it calls)
  * Releasebot.Runs          — workflow-run helpers (AllRunsFinished,
                               AnyRunFailed, RunsForTagPushWorkflows) and the
                               CI-wait decision of cmd/root.go doReleaseSteps
  * Releasebot.Wait          — internal/pypi/pypi.go Wait and the dockerhub Wait
  * Releasebot.Retry         — internal/changelog/llm.go retryWithBackoff
  * Releasebot.TUI           — the release TUI state machine (releaseTUI.Update)
                               fed by the doReleaseSteps reporter

Machine integers: every number that reaches these functions comes from a run
of ASCII digits (regex \d+) or is a small constant, so the embedding uses Nat;
the int64 clamping of strconv.Atoi on astronomically long digit runs is not
modelled (the Go code discards the Atoi error).
-/

set_option maxHeartbeats 1600000

namespace Releasebot

namespace Semver

/-- Version mirrors semver.Version of internal/semver/semver.go: major.minor.patch
with an optional prerelease. preKind is one of "rc", "a" (alpha tags parse to
"a") or "" for stable. -/
structure Version where
  major : Nat
  minor : Nat
  patch : Nat
  preKind : String := ""
  preNum : Nat := 0
deriving DecidableEq, Repr

/-- Version.Less of semver.go: release order, with stable above rc above alpha at
an equal base triple. -/
def Version.less (v o : Version) : Bool :=
  if v.major ≠ o.major then decide (v.major < o.major)
  else if v.minor ≠ o.minor then decide (v.minor < o.minor)
  else if v.patch ≠ o.patch then decide (v.patch < o.patch)
  else
    let vStable : Bool := v.preKind == ""
    let oStable : Bool := o.preKind == ""
    if vStable ≠ oStable then !vStable
    else if v.preKind ≠ o.preKind then v.preKind == "a"
    else decide (v.preNum < o.preNum)

/-- Version.String of semver.go: the tag rendering without a leading v. -/
def Version.toTagString (v : Version) : String :=
  let base := toString v.major ++ "." ++ toString v.minor ++ "." ++ toString v.patch
  if v.preKind = "rc" then base ++ "rc" ++ toString v.preNum
  else if v.preKind = "a" then base ++ "a" ++ toString v.preNum
  else base

/-- Version.StringWithV of semver.go. -/
def Version.stringWithV (v : Version) : String := "v" ++ v.toTagString

/-- Version.IsStable of semver.go (the nil-receiver case cannot arise here). -/
def Version.isStable (v : Version) : Bool := v.preKind == ""

/-- Version.Base of semver.go. -/
def Version.base (v : Version) : Version := ⟨v.major, v.minor, v.patch, "", 0⟩

/-- Version.NextPatch of semver.go. -/
def Version.nextPatch (v : Version) : Version := ⟨v.major, v.minor, v.patch + 1, "", 0⟩

/-- Version.NextMinor of semver.go. -/
def Version.nextMinor (v : Version) : Version := ⟨v.major, v.minor + 1, 0, "", 0⟩

/-- Version.NextMajor of semver.go. -/
def Version.nextMajor (v : Version) : Version := ⟨v.major + 1, 0, 0, "", 0⟩

/-- Version.NextRC of semver.go. -/
def Version.nextRC (v : Version) (existingRCNum : Option Nat) : Version :=
  match existingRCNum with
  | some n => ⟨v.major, v.minor, v.patch, "rc", n + 1⟩
  | none => ⟨v.major, v.minor, v.patch, "rc", 0⟩

/-- Version.NextAlpha of semver.go. -/
def Version.nextAlpha (v : Version) (existingANum : Option Nat) : Version :=
  match existingANum with
  | some n => ⟨v.major, v.minor, v.patch, "a", n + 1⟩
  | none => ⟨v.major, v.minor, v.patch, "a", 0⟩

/-- Go's unicode.IsSpace on the Latin-1 range, which is what strings.TrimSpace
strips from tag strings (tags past Latin-1 whitespace are not modelled). -/
def goIsSpace (c : Char) : Bool :=
  c == ' ' || c == '\t' || c == '\n' || c == '\x0b' || c == '\x0c' || c == '\r' ||
    c == '\x85' || c == '\xa0'

/-- strings.TrimSpace over the character list of a tag. -/
def trimSpaceGo (cs : List Char) : List Char :=
  ((cs.dropWhile goIsSpace).reverse.dropWhile goIsSpace).reverse

/-- Longest run of leading ASCII digits, and the rest. -/
def takeDigits : List Char → List Char × List Char
  | [] => ([], [])
  | c :: cs =>
    if c.isDigit then
      let p := takeDigits cs
      (c :: p.1, p.2)
    else ([], c :: cs)

/-- Numeric value of a digit run (strconv.Atoi with the error discarded; the
int64 clamp is not modelled, see the file header). -/
def digitsVal (ds : List Char) : Nat :=
  ds.foldl (fun n c => n * 10 + (c.toNat - '0'.toNat)) 0

/-- One or more digits followed by the rest, as in a regex group match. -/
def parseNum (cs : List Char) : Option (Nat × List Char) :=
  match takeDigits cs with
  | ([], _) => none
  | (ds, rest) => some (digitsVal ds, rest)

def expectDot : List Char → Option (List Char)
  | '.' :: rest => some rest
  | _ => none

/-- The shared regex prefix (digits dot digits dot digits) of the three tag
regexes of semver.go. -/
def parseTriple (cs : List Char) : Option (Nat × Nat × Nat × List Char) := do
  let p1 ← parseNum cs
  let r2 ← expectDot p1.2
  let p2 ← parseNum r2
  let r4 ← expectDot p2.2
  let p3 ← parseNum r4
  return (p1.1, p2.1, p3.1, p3.2)

/-- ParseTag of semver.go. The Go code trims the tag and tries the anchored
regexes rcRegex, alphaRegex and stableRegex in order. All three share the
deterministic prefix optional-v digits dot digits dot digits (the digit groups
are maximal because a non-digit follows each), so the match is a single pass on
that prefix followed by the suffix cases, which are mutually exclusive; hence
the order of the regexes does not matter and this one-pass parser is equivalent. -/
def parseTag (tag : String) : Option Version :=
  let cs := trimSpaceGo tag.toList
  let cs1 := match cs with
    | 'v' :: rest => rest
    | _ => cs
  match parseTriple cs1 with
  | none => none
  | some (a, b, c, rest) =>
    match rest with
    | [] => some ⟨a, b, c, "", 0⟩
    | 'r' :: 'c' :: ds =>
      match parseNum ds with
      | some (n, []) => some ⟨a, b, c, "rc", n⟩
      | _ => none
    | 'a' :: ds =>
      match parseNum ds with
      | some (n, []) => some ⟨a, b, c, "a", n⟩
      | _ => none
    | _ => none


/-- Rank of a prerelease kind in release order: stable above rc above alpha. -/
def kindRank (k : String) : Nat := if k = "" then 2 else if k = "rc" then 1 else 0

/-- The prerelease kinds ParseTag can produce. -/
def PreKindOK (v : Version) : Prop := v.preKind = "" ∨ v.preKind = "rc" ∨ v.preKind = "a"

/-- The ordering as the spec words it: (major, minor, patch) lexicographically,
then stable above any prerelease and rc above alpha, then by preNum. -/
def specLess (a b : Version) : Prop :=
  a.major < b.major ∨ (a.major = b.major ∧ (a.minor < b.minor ∨ (a.minor = b.minor ∧
    (a.patch < b.patch ∨ (a.patch = b.patch ∧ (kindRank a.preKind < kindRank b.preKind ∨
      (a.preKind = b.preKind ∧ a.preNum < b.preNum)))))))

/-- specLess with the kind-equality atom replaced by rank equality (an
arithmetic bridge). -/
def rankedLess (a b : Version) : Prop :=
  a.major < b.major ∨ (a.major = b.major ∧ (a.minor < b.minor ∨ (a.minor = b.minor ∧
    (a.patch < b.patch ∨ (a.patch = b.patch ∧ (kindRank a.preKind < kindRank b.preKind ∨
      (kindRank a.preKind = kindRank b.preKind ∧ a.preNum < b.preNum)))))))

theorem kindRank_inj {a b : Version} (ha : PreKindOK a) (hb : PreKindOK b)
    (h : kindRank a.preKind = kindRank b.preKind) : a.preKind = b.preKind := by
  rcases ha with h1 | h1 | h1 <;> rcases hb with h2 | h2 | h2 <;>
    simp [kindRank, h1, h2] at h ⊢

theorem specLess_iff_rankedLess {a b : Version} (ha : PreKindOK a) (hb : PreKindOK b) :
    specLess a b ↔ rankedLess a b := by
  unfold specLess rankedLess
  constructor
  · intro h
    rcases h with h | ⟨e1, h⟩
    · exact Or.inl h
    refine Or.inr ⟨e1, ?_⟩
    rcases h with h | ⟨e2, h⟩
    · exact Or.inl h
    refine Or.inr ⟨e2, ?_⟩
    rcases h with h | ⟨e3, h⟩
    · exact Or.inl h
    refine Or.inr ⟨e3, ?_⟩
    rcases h with h | ⟨e4, h⟩
    · exact Or.inl h
    · exact Or.inr ⟨by rw [e4], h⟩
  · intro h
    rcases h with h | ⟨e1, h⟩
    · exact Or.inl h
    refine Or.inr ⟨e1, ?_⟩
    rcases h with h | ⟨e2, h⟩
    · exact Or.inl h
    refine Or.inr ⟨e2, ?_⟩
    rcases h with h | ⟨e3, h⟩
    · exact Or.inl h
    refine Or.inr ⟨e3, ?_⟩
    rcases h with h | ⟨e4, h⟩
    · exact Or.inl h
    · exact Or.inr ⟨kindRank_inj ha hb e4, h⟩

theorem less_iff_specLess {a b : Version} (ha : PreKindOK a) (hb : PreKindOK b) :
    a.less b = true ↔ specLess a b := by
  rcases ha with h1 | h1 | h1 <;> rcases hb with h2 | h2 | h2 <;>
    simp [Version.less, specLess, kindRank, h1, h2] <;>
    split_ifs <;> simp_all <;> omega

theorem less_irrefl (a : Version) : a.less a = false := by
  simp [Version.less]

theorem rankedLess_trans {a b c : Version} (h1 : rankedLess a b) (h2 : rankedLess b c) :
    rankedLess a c := by
  unfold rankedLess at *
  omega

theorem rankedLess_asymm {a b : Version} (h : rankedLess a b) : ¬ rankedLess b a := by
  unfold rankedLess at *
  omega

theorem rankedLess_total_or_eq {a b : Version} (h1 : ¬ rankedLess a b) (h2 : ¬ rankedLess b a) :
    a.major = b.major ∧ a.minor = b.minor ∧ a.patch = b.patch ∧
      kindRank a.preKind = kindRank b.preKind ∧ a.preNum = b.preNum := by
  unfold rankedLess at *
  omega

theorem less_trans {a b c : Version} (ha : PreKindOK a) (hb : PreKindOK b) (hc : PreKindOK c)
    (h1 : a.less b = true) (h2 : b.less c = true) : a.less c = true := by
  rw [less_iff_specLess ha hb, specLess_iff_rankedLess ha hb] at h1
  rw [less_iff_specLess hb hc, specLess_iff_rankedLess hb hc] at h2
  rw [less_iff_specLess ha hc, specLess_iff_rankedLess ha hc]
  exact rankedLess_trans h1 h2

theorem version_eq_of_fields {a b : Version} (ha : PreKindOK a) (hb : PreKindOK b)
    (h : a.major = b.major ∧ a.minor = b.minor ∧ a.patch = b.patch ∧
      kindRank a.preKind = kindRank b.preKind ∧ a.preNum = b.preNum) : a = b := by
  have hk := kindRank_inj ha hb h.2.2.2.1
  cases a
  cases b
  simp_all

theorem less_trichotomy {a b : Version} (ha : PreKindOK a) (hb : PreKindOK b) (hne : a ≠ b) :
    (a.less b = true ∧ b.less a = false) ∨ (a.less b = false ∧ b.less a = true) := by
  by_cases hab : rankedLess a b
  · left
    constructor
    · rw [less_iff_specLess ha hb, specLess_iff_rankedLess ha hb]
      exact hab
    · have : ¬ b.less a = true := by
        rw [less_iff_specLess hb ha, specLess_iff_rankedLess hb ha]
        exact rankedLess_asymm hab
      simpa using this
  · by_cases hba : rankedLess b a
    · right
      constructor
      · have : ¬ a.less b = true := by
          rw [less_iff_specLess ha hb, specLess_iff_rankedLess ha hb]
          exact hab
        simpa using this
      · rw [less_iff_specLess hb ha, specLess_iff_rankedLess hb ha]
        exact hba
    · exact absurd (version_eq_of_fields ha hb (rankedLess_total_or_eq hab hba)) hne

theorem parseTag_preKindOK {s : String} {v : Version} (h : parseTag s = some v) : PreKindOK v := by
  unfold parseTag at h
  dsimp only at h
  split at h
  · exact absurd h (by simp)
  · split at h
    · cases h
      simp [PreKindOK]
    · split at h
      · cases h
        simp [PreKindOK]
      · simp_all
    · split at h
      · cases h
        simp [PreKindOK]
      · simp_all
    · simp_all


/-- The search loop of LatestTag in semver.go: running maximum over the tags
that parse. -/
def latestTagMax : Option Version → List String → Option Version
  | cur, [] => cur
  | cur, t :: ts =>
    latestTagMax
      (match parseTag t with
        | none => cur
        | some v =>
          match cur with
          | none => some v
          | some m => if m.less v then some v else some m) ts

/-- The per-field equality test of LatestTag's second loop. -/
def latestTagPred (mx : Version) (t : String) : Bool :=
  match parseTag t with
  | some p => p == mx
  | none => false

/-- LatestTag of semver.go. -/
def latestTag (tags : List String) : String :=
  match latestTagMax none tags with
  | none => ""
  | some mx =>
    match tags.find? (latestTagPred mx) with
    | some t => t
    | none => if mx.isStable then mx.stringWithV else mx.toTagString

/-- The search loop of LatestStableTag in semver.go: running maximum over the
tags that parse as stable. -/
def latestStableMax : Option Version → List String → Option Version
  | cur, [] => cur
  | cur, t :: ts =>
    latestStableMax
      (match parseTag t with
        | none => cur
        | some v =>
          if v.isStable then
            match cur with
            | none => some v
            | some m => if m.less v then some v else some m
          else cur) ts

/-- The stable-and-same-triple test of LatestStableTag's second loop. -/
def latestStablePred (mx : Version) (t : String) : Bool :=
  match parseTag t with
  | some p => p.isStable && (p.major == mx.major) && (p.minor == mx.minor) && (p.patch == mx.patch)
  | none => false

/-- LatestStableTag of semver.go. -/
def latestStableTag (tags : List String) : String :=
  match latestStableMax none tags with
  | none => ""
  | some mx =>
    match tags.find? (latestStablePred mx) with
    | some t => t
    | none => mx.stringWithV

theorem latestTagMax_none_iff : ∀ (ts : List String) (cur : Option Version),
    latestTagMax cur ts = none ↔ (cur = none ∧ ∀ t ∈ ts, parseTag t = none) := by
  intro ts
  induction ts with
  | nil => intro cur; simp [latestTagMax]
  | cons t ts ih =>
    intro cur
    simp only [latestTagMax]
    cases hp : parseTag t with
    | none =>
      rw [ih]
      simp [hp]
    | some v =>
      cases cur with
      | none =>
        rw [ih]
        simp [hp]
      | some m =>
        rw [ih]
        simp only [hp]
        constructor
        · rintro ⟨h, -⟩
          split at h <;> simp_all
        · rintro ⟨h, -⟩
          simp_all

theorem latestTagMax_some_src : ∀ (ts : List String) (cur : Option Version) (v : Version),
    latestTagMax cur ts = some v → cur = some v ∨ ∃ t ∈ ts, parseTag t = some v := by
  intro ts
  induction ts with
  | nil => intro cur v h; simp only [latestTagMax] at h; exact Or.inl h
  | cons t ts ih =>
    intro cur v h
    simp only [latestTagMax] at h
    cases cur with
    | none =>
      cases hp : parseTag t with
      | none =>
        simp only [hp] at h
        rcases ih _ _ h with hc | ⟨t1, ht1, hp1⟩
        · exact Or.inl hc
        · exact Or.inr ⟨t1, by simp [ht1], hp1⟩
      | some u =>
        simp only [hp] at h
        rcases ih _ _ h with hc | ⟨t1, ht1, hp1⟩
        · exact Or.inr ⟨t, by simp, hp.trans hc⟩
        · exact Or.inr ⟨t1, by simp [ht1], hp1⟩
    | some m =>
      cases hp : parseTag t with
      | none =>
        simp only [hp] at h
        rcases ih _ _ h with hc | ⟨t1, ht1, hp1⟩
        · exact Or.inl hc
        · exact Or.inr ⟨t1, by simp [ht1], hp1⟩
      | some u =>
        simp only [hp] at h
        split at h
        · rcases ih _ _ h with hc | ⟨t1, ht1, hp1⟩
          · exact Or.inr ⟨t, by simp, hp.trans hc⟩
          · exact Or.inr ⟨t1, by simp [ht1], hp1⟩
        · rcases ih _ _ h with hc | ⟨t1, ht1, hp1⟩
          · exact Or.inl hc
          · exact Or.inr ⟨t1, by simp [ht1], hp1⟩

theorem latestStableMax_none_iff : ∀ (ts : List String) (cur : Option Version),
    latestStableMax cur ts = none ↔
      (cur = none ∧ ∀ t ∈ ts, ∀ u, parseTag t = some u → u.isStable = false) := by
  intro ts
  induction ts with
  | nil => intro cur; simp [latestStableMax]
  | cons t ts ih =>
    intro cur
    simp only [latestStableMax]
    cases hp : parseTag t with
    | none =>
      rw [ih]
      simp [hp]
    | some v =>
      cases hs : v.isStable with
      | false =>
        rw [ih]
        simp [hp, hs]
      | true =>
        cases cur with
        | none =>
          rw [ih]
          simp [hp, hs]
        | some m =>
          rw [ih]
          simp only [hp, hs, if_true]
          constructor
          · rintro ⟨h, -⟩
            split at h <;> simp_all
          · rintro ⟨h, -⟩
            simp_all

theorem latestStableMax_some_src : ∀ (ts : List String) (cur : Option Version) (v : Version),
    latestStableMax cur ts = some v →
      cur = some v ∨ (∃ t ∈ ts, parseTag t = some v ∧ v.isStable = true) := by
  intro ts
  induction ts with
  | nil => intro cur v h; simp only [latestStableMax] at h; exact Or.inl h
  | cons t ts ih =>
    intro cur v h
    simp only [latestStableMax] at h
    cases hp : parseTag t with
    | none =>
      simp only [hp] at h
      rcases ih _ _ h with hc | ⟨t1, ht1, hp1⟩
      · exact Or.inl hc
      · exact Or.inr ⟨t1, by simp [ht1], hp1⟩
    | some u =>
      cases hs : u.isStable with
      | false =>
        simp only [hp, hs] at h
        rcases ih _ _ (by simpa using h) with hc | ⟨t1, ht1, hp1⟩
        · exact Or.inl hc
        · exact Or.inr ⟨t1, by simp [ht1], hp1⟩
      | true =>
        cases cur with
        | none =>
          simp only [hp, hs, if_true] at h
          rcases ih _ _ h with hc | ⟨t1, ht1, hp1⟩
          · refine Or.inr ⟨t, by simp, hp.trans hc, ?_⟩
            rw [← Option.some_inj.mp hc]
            exact hs
          · exact Or.inr ⟨t1, by simp [ht1], hp1⟩
        | some m =>
          simp only [hp, hs, if_true] at h
          split at h
          · rcases ih _ _ h with hc | ⟨t1, ht1, hp1⟩
            · refine Or.inr ⟨t, by simp, hp.trans hc, ?_⟩
              rw [← Option.some_inj.mp hc]
              exact hs
            · exact Or.inr ⟨t1, by simp [ht1], hp1⟩
          · rcases ih _ _ h with hc | ⟨t1, ht1, hp1⟩
            · exact Or.inl hc
            · exact Or.inr ⟨t1, by simp [ht1], hp1⟩


theorem latestTagPred_eq {mx : Version} {t : String} (h : latestTagPred mx t = true) :
    parseTag t = some mx := by
  unfold latestTagPred at h
  cases hp : parseTag t with
  | none => simp [hp] at h
  | some p =>
    simp only [hp, beq_iff_eq] at h
    rw [h]

theorem latestStablePred_parses {mx : Version} {t : String} (h : latestStablePred mx t = true) :
    ∃ p, parseTag t = some p := by
  unfold latestStablePred at h
  cases hp : parseTag t with
  | none => simp [hp] at h
  | some p => exact ⟨p, rfl⟩

/-- C10: LatestTag and LatestStableTag return a member of the input tag list
whenever they return a non-empty string — the canonical-rendering fallback
branch after the exact-match search is unreachable (that search always succeeds
when the running maximum exists) — and they return the empty string exactly
when no input tag parses as a version (respectively as a stable version). -/
theorem latest_tag_membership : ∀ tags : List String,
    (latestTag tags = "" ↔ ∀ t ∈ tags, parseTag t = none) ∧
    (latestTag tags ≠ "" → latestTag tags ∈ tags) ∧
    (∀ mx, latestTagMax none tags = some mx → (tags.find? (latestTagPred mx)).isSome = true) ∧
    (latestStableTag tags = "" ↔ ∀ t ∈ tags, ∀ u, parseTag t = some u → u.isStable = false) ∧
    (latestStableTag tags ≠ "" → latestStableTag tags ∈ tags) ∧
    (∀ mx, latestStableMax none tags = some mx →
      (tags.find? (latestStablePred mx)).isSome = true) := by
  intro tags
  have hA : (latestTag tags = "" ↔ ∀ t ∈ tags, parseTag t = none) ∧
      (latestTag tags ≠ "" → latestTag tags ∈ tags) ∧
      (∀ mx, latestTagMax none tags = some mx →
        (tags.find? (latestTagPred mx)).isSome = true) := by
    cases hmax : latestTagMax none tags with
    | none =>
      have hall := (latestTagMax_none_iff tags none).mp hmax
      refine ⟨?_, ?_, ?_⟩
      · unfold latestTag
        rw [hmax]
        simpa using hall.2
      · unfold latestTag
        rw [hmax]
        intro hne
        exact absurd rfl hne
      · intro mx hmx
        exact absurd hmx (by simp)
    | some mx =>
      rcases latestTagMax_some_src tags none mx hmax with hc | ⟨t0, ht0, hp0⟩
      · exact absurd hc (by simp)
      · have hfind : (tags.find? (latestTagPred mx)).isSome = true := by
          rw [List.find?_isSome]
          exact ⟨t0, ht0, by simp [latestTagPred, hp0]⟩
        rcases Option.isSome_iff_exists.mp hfind with ⟨tf, htf⟩
        have heq : latestTag tags = tf := by
          unfold latestTag
          simp only [hmax, htf]
        have htfmem : tf ∈ tags := List.mem_of_find?_eq_some htf
        have htfparse : parseTag tf = some mx := latestTagPred_eq (List.find?_some htf)
        have htfne : tf ≠ "" := by
          intro hemp
          rw [hemp] at htfparse
          exact absurd htfparse (by simp [show parseTag "" = none from rfl])
        refine ⟨?_, ?_, ?_⟩
        · rw [heq]
          constructor
          · intro h
            exact absurd h htfne
          · intro hall
            exact absurd (hall t0 ht0) (by simp [hp0])
        · intro _
          rw [heq]
          exact htfmem
        · intro mx' hmx'
          rw [← Option.some_inj.mp hmx']
          exact hfind
  have hB : (latestStableTag tags = "" ↔
        ∀ t ∈ tags, ∀ u, parseTag t = some u → u.isStable = false) ∧
      (latestStableTag tags ≠ "" → latestStableTag tags ∈ tags) ∧
      (∀ mx, latestStableMax none tags = some mx →
        (tags.find? (latestStablePred mx)).isSome = true) := by
    cases hmax : latestStableMax none tags with
    | none =>
      have hall := (latestStableMax_none_iff tags none).mp hmax
      refine ⟨?_, ?_, ?_⟩
      · unfold latestStableTag
        rw [hmax]
        simpa using hall.2
      · unfold latestStableTag
        rw [hmax]
        intro hne
        exact absurd rfl hne
      · intro mx hmx
        exact absurd hmx (by simp)
    | some mx =>
      rcases latestStableMax_some_src tags none mx hmax with hc | ⟨t0, ht0, hp0, hs0⟩
      · exact absurd hc (by simp)
      · have hfind : (tags.find? (latestStablePred mx)).isSome = true := by
          rw [List.find?_isSome]
          exact ⟨t0, ht0, by simp [latestStablePred, hp0, hs0]⟩
        rcases Option.isSome_iff_exists.mp hfind with ⟨tf, htf⟩
        have heq : latestStableTag tags = tf := by
          unfold latestStableTag
          simp only [hmax, htf]
        have htfmem : tf ∈ tags := List.mem_of_find?_eq_some htf
        rcases latestStablePred_parses (List.find?_some htf) with ⟨p, hpf⟩
        have htfne : tf ≠ "" := by
          intro hemp
          rw [hemp] at hpf
          exact absurd hpf (by simp [show parseTag "" = none from rfl])
        refine ⟨?_, ?_, ?_⟩
        · rw [heq]
          constructor
          · intro h
            exact absurd h htfne
          · intro hall
            exact absurd (hall t0 ht0 mx hp0) (by simp [hs0])
        · intro _
          rw [heq]
          exact htfmem
        · intro mx' hmx'
          rw [← Option.some_inj.mp hmx']
          exact hfind
  exact ⟨hA.1, hA.2.1, hA.2.2, hB.1, hB.2.1, hB.2.2⟩

/-- C7: On versions parsed from valid tag strings — whose preKind is one of
"", "rc", "a" (parseTag_preKindOK, restated as the first conjunct) —
Version.Less is a strict total order: irreflexive, transitive, and of two
distinct versions exactly one direction holds; and it is exactly the order that
compares (major, minor, patch) lexicographically first, then puts stable above
any prerelease and rc above alpha at an equal base, then compares preNum
(specLess). -/
theorem less_strict_total_order :
    (∀ (s : String) (v : Version), parseTag s = some v → PreKindOK v) ∧
    (∀ a : Version, a.less a = false) ∧
    (∀ a b c : Version, PreKindOK a → PreKindOK b → PreKindOK c →
      a.less b = true → b.less c = true → a.less c = true) ∧
    (∀ a b : Version, PreKindOK a → PreKindOK b → a ≠ b →
      (a.less b = true ∧ b.less a = false) ∨ (a.less b = false ∧ b.less a = true)) ∧
    (∀ a b : Version, PreKindOK a → PreKindOK b → (a.less b = true ↔ specLess a b)) :=
  ⟨fun _ _ => parseTag_preKindOK, less_irrefl,
   fun _ _ _ ha hb hc => less_trans ha hb hc,
   fun _ _ ha hb => less_trichotomy ha hb,
   fun _ _ ha hb => less_iff_specLess ha hb⟩

/-- Concrete instance of C7 trichotomy: 1.2.3a4 versus 1.2.3rc0. -/
theorem less_strict_total_order_witness :
    ((Version.mk 1 2 3 "a" 4).less ⟨1, 2, 3, "rc", 0⟩ = true ∧
        (Version.mk 1 2 3 "rc" 0).less ⟨1, 2, 3, "a", 4⟩ = false) ∨
      ((Version.mk 1 2 3 "a" 4).less ⟨1, 2, 3, "rc", 0⟩ = false ∧
        (Version.mk 1 2 3 "rc" 0).less ⟨1, 2, 3, "a", 4⟩ = true) :=
  less_strict_total_order.2.2.2.1 ⟨1, 2, 3, "a", 4⟩ ⟨1, 2, 3, "rc", 0⟩
    (by simp [PreKindOK]) (by simp [PreKindOK]) (by decide)


/-- Association list standing for a Go map from base-triple keys to the
maximal prerelease number seen (semver.go builds the key as the string
"X.Y.Z" via Sprintf and re-parses it with Sscanf; that round-trip is the
identity on the triple, so the key is kept as the triple itself). -/
def lookupBase : List ((Nat × Nat × Nat) × Nat) → (Nat × Nat × Nat) → Option Nat
  | [], _ => none
  | kv :: rest, key => if kv.1 = key then some kv.2 else lookupBase rest key

/-- The conditional map update of NextFromTags: keep the larger prerelease
number per base triple. -/
def updateBases (m : List ((Nat × Nat × Nat) × Nat)) (key : Nat × Nat × Nat) (n : Nat) :
    List ((Nat × Nat × Nat) × Nat) :=
  match lookupBase m key with
  | none => m ++ [(key, n)]
  | some cur => if cur < n then m.map (fun kv => if kv.1 = key then (key, n) else kv) else m

/-- The three accumulators of NextFromTags' scan loop. -/
structure ScanAcc where
  maxStable : Option Version
  rcBases : List ((Nat × Nat × Nat) × Nat)
  alphaBases : List ((Nat × Nat × Nat) × Nat)

/-- One iteration of the scan loop of NextFromTags in semver.go. -/
def scanStep (acc : ScanAcc) (t : String) : ScanAcc :=
  match parseTag t with
  | none => acc
  | some v =>
    let acc1 :=
      if v.isStable then
        { acc with maxStable :=
            match acc.maxStable with
            | none => some v
            | some m => if m.less v then some v else some m }
      else acc
    let acc2 :=
      if v.preKind == "rc" then
        { acc1 with rcBases := updateBases acc1.rcBases (v.major, v.minor, v.patch) v.preNum }
      else acc1
    if v.preKind == "a" then
      { acc2 with alphaBases := updateBases acc2.alphaBases (v.major, v.minor, v.patch) v.preNum }
    else acc2

/-- The rc/alpha base map built over a tag list (one projection of the scan). -/
def preBases (kind : String) :
    List ((Nat × Nat × Nat) × Nat) → List String → List ((Nat × Nat × Nat) × Nat)
  | m, [] => m
  | m, t :: ts =>
    preBases kind
      (match parseTag t with
        | none => m
        | some v =>
          if v.preKind == kind then updateBases m (v.major, v.minor, v.patch) v.preNum else m) ts

/-- The Sscanf re-parse of a map key in the candidate loop of NextFromTags. -/
def versionOfKey (k : Nat × Nat × Nat) : Version := ⟨k.1, k.2.1, k.2.2, "", 0⟩

/-- The candidate-maximum loop of NextFromTags (base = candidates[0], then
replace whenever base.Less(candidates[i])). -/
def maxOfCandidates (first : Version) (rest : List Version) : Version :=
  rest.foldl (fun b c => if b.less c then c else b) first

/-- NextFromTags of semver.go. Go iterates the rcBases/alphaBases map in an
unspecified order; the candidate list here fixes insertion order, which does
not change the computed maximum because the keys are distinct stable triples
and Less is total on them. -/
def nextFromTags (tags : List String) (rc alpha release major : Bool) : String :=
  let acc := tags.foldl scanStep ⟨none, [], []⟩
  if rc then
    let first :=
      match acc.maxStable with
      | some m => m.nextPatch
      | none => ⟨1, 0, 0, "", 0⟩
    let base := maxOfCandidates first (acc.rcBases.map (fun kv => versionOfKey kv.1))
    match lookupBase acc.rcBases (base.major, base.minor, base.patch) with
    | some n => (base.nextRC (some n)).toTagString
    | none => (base.nextRC none).toTagString
  else if alpha then
    let first :=
      match acc.maxStable with
      | some m => m.nextPatch
      | none => ⟨1, 0, 0, "", 0⟩
    let base := maxOfCandidates first (acc.alphaBases.map (fun kv => versionOfKey kv.1))
    match lookupBase acc.alphaBases (base.major, base.minor, base.patch) with
    | some n => (base.nextAlpha (some n)).toTagString
    | none => (base.nextAlpha none).toTagString
  else
    match acc.maxStable with
    | none => "v1.0.0"
    | some ms =>
      if release then
        if major then ms.nextMajor.stringWithV else ms.nextMinor.stringWithV
      else ms.nextPatch.stringWithV


theorem isStable_iff {v : Version} : v.isStable = true ↔ v.preKind = "" := by
  simp [Version.isStable]

/-- A tag of the list parses to the stable version v. -/
def StableIn (tags : List String) (v : Version) : Prop :=
  ∃ t ∈ tags, parseTag t = some v ∧ v.preKind = ""

/-- v is the greatest parsed stable tag of the list. -/
def IsMaxStable (tags : List String) (v : Version) : Prop :=
  StableIn tags v ∧ ∀ u, StableIn tags u → u.less v = true ∨ u = v

theorem scan_maxStable : ∀ (ts : List String) (acc : ScanAcc),
    (ts.foldl scanStep acc).maxStable = latestStableMax acc.maxStable ts := by
  intro ts
  induction ts with
  | nil => intro acc; rfl
  | cons t ts ih =>
    intro acc
    rw [List.foldl_cons, ih]
    simp only [latestStableMax]
    congr 1
    unfold scanStep
    cases hp : parseTag t with
    | none => rfl
    | some v =>
      cases hs : v.isStable with
      | false =>
        simp only [hs, if_false, Bool.false_eq_true]
        by_cases hrc : v.preKind == "rc" <;> by_cases ha : v.preKind == "a" <;>
          simp [hrc, ha]
      | true =>
        simp only [hs, if_true]
        by_cases hrc : v.preKind == "rc" <;> by_cases ha : v.preKind == "a" <;>
          simp [hrc, ha]

theorem scan_rcBases : ∀ (ts : List String) (acc : ScanAcc),
    (ts.foldl scanStep acc).rcBases = preBases "rc" acc.rcBases ts := by
  intro ts
  induction ts with
  | nil => intro acc; rfl
  | cons t ts ih =>
    intro acc
    rw [List.foldl_cons, ih]
    simp only [preBases]
    congr 1
    unfold scanStep
    cases hp : parseTag t with
    | none => rfl
    | some v =>
      cases hs : v.isStable with
      | false =>
        simp only [hs, if_false, Bool.false_eq_true]
        by_cases hrc : v.preKind == "rc" <;> by_cases ha : v.preKind == "a" <;>
          simp [hrc, ha]
      | true =>
        simp only [hs, if_true]
        by_cases hrc : v.preKind == "rc" <;> by_cases ha : v.preKind == "a" <;>
          simp [hrc, ha]

theorem scan_alphaBases : ∀ (ts : List String) (acc : ScanAcc),
    (ts.foldl scanStep acc).alphaBases = preBases "a" acc.alphaBases ts := by
  intro ts
  induction ts with
  | nil => intro acc; rfl
  | cons t ts ih =>
    intro acc
    rw [List.foldl_cons, ih]
    simp only [preBases]
    congr 1
    unfold scanStep
    cases hp : parseTag t with
    | none => rfl
    | some v =>
      cases hs : v.isStable with
      | false =>
        simp only [hs, if_false, Bool.false_eq_true]
        by_cases hrc : v.preKind == "rc" <;> by_cases ha : v.preKind == "a" <;>
          simp [hrc, ha]
      | true =>
        simp only [hs, if_true]
        by_cases hrc : v.preKind == "rc" <;> by_cases ha : v.preKind == "a" <;>
          simp [hrc, ha]

theorem stable_less_or_eq {u m : Version} (hu : u.preKind = "") (hm : m.preKind = "")
    (hnot : ¬ m.less u = true) : u.less m = true ∨ u = m := by
  by_cases he : u = m
  · exact Or.inr he
  · rcases less_trichotomy (Or.inl hu) (Or.inl hm) he with ⟨h1, -⟩ | ⟨-, h2⟩
    · exact Or.inl h1
    · exact absurd h2 hnot

theorem latestStableMax_ge : ∀ (ts : List String) (cur : Option Version) (v : Version),
    (∀ w, cur = some w → w.preKind = "") →
    latestStableMax cur ts = some v →
    v.preKind = "" ∧
    (∀ w, cur = some w → w.less v = true ∨ w = v) ∧
    (∀ t ∈ ts, ∀ u, parseTag t = some u → u.preKind = "" → u.less v = true ∨ u = v) := by
  intro ts
  induction ts with
  | nil =>
    intro cur v hcur h
    simp only [latestStableMax] at h
    refine ⟨hcur v h, ?_, by simp⟩
    intro w hw
    rw [hw] at h
    exact Or.inr (Option.some_inj.mp h)
  | cons t ts ih =>
    intro cur v hcur h
    simp only [latestStableMax] at h
    cases hp : parseTag t with
    | none =>
      simp only [hp] at h
      obtain ⟨h1, h2, h3⟩ := ih cur v hcur h
      refine ⟨h1, h2, ?_⟩
      intro t' ht' u hu hus
      rcases List.mem_cons.mp ht' with rfl | ht'
      · rw [hp] at hu
        exact absurd hu (by simp)
      · exact h3 t' ht' u hu hus
    | some v0 =>
      cases hs : v0.isStable with
      | false =>
        simp only [hp, hs] at h
        obtain ⟨h1, h2, h3⟩ := ih cur v hcur (by simpa using h)
        refine ⟨h1, h2, ?_⟩
        intro t' ht' u hu hus
        rcases List.mem_cons.mp ht' with rfl | ht'
        · rw [hp] at hu
          rw [← Option.some_inj.mp hu] at hus
          rw [← isStable_iff] at hus
          rw [hus] at hs
          exact absurd hs (by simp)
        · exact h3 t' ht' u hu hus
      | true =>
        have hv0 : v0.preKind = "" := isStable_iff.mp hs
        simp only [hp, hs, if_true] at h
        cases cur with
        | none =>
          obtain ⟨h1, h2, h3⟩ := ih (some v0) v (by intro w hw; rw [← Option.some_inj.mp hw]; exact hv0) h
          refine ⟨h1, by simp, ?_⟩
          intro t' ht' u hu hus
          rcases List.mem_cons.mp ht' with rfl | ht'
          · rw [hp] at hu
            rw [← Option.some_inj.mp hu]
            exact h2 v0 rfl
          · exact h3 t' ht' u hu hus
        | some m =>
          have hm : m.preKind = "" := hcur m rfl
          dsimp only at h
          by_cases hless : m.less v0 = true
          · rw [if_pos hless] at h
            obtain ⟨h1, h2, h3⟩ :=
              ih (some v0) v (by intro w hw; rw [← Option.some_inj.mp hw]; exact hv0) h
            have hv0v : v0.less v = true ∨ v0 = v := h2 v0 rfl
            refine ⟨h1, ?_, ?_⟩
            · intro w hw
              obtain rfl : m = w := Option.some_inj.mp hw
              rcases hv0v with hlt | rfl
              · exact Or.inl (less_trans (Or.inl hm) (Or.inl hv0) (Or.inl h1) hless hlt)
              · exact Or.inl hless
            · intro t' ht' u hu hus
              rcases List.mem_cons.mp ht' with rfl | ht'
              · rw [hp] at hu
                rw [← Option.some_inj.mp hu]
                exact hv0v
              · exact h3 t' ht' u hu hus
          · rw [if_neg hless] at h
            obtain ⟨h1, h2, h3⟩ := ih (some m) v hcur h
            have hmv : m.less v = true ∨ m = v := h2 m rfl
            refine ⟨h1, ?_, ?_⟩
            · intro w hw
              obtain rfl : m = w := Option.some_inj.mp hw
              exact hmv
            · intro t' ht' u hu hus
              rcases List.mem_cons.mp ht' with rfl | ht'
              · rw [hp] at hu
                rw [← Option.some_inj.mp hu]
                rcases stable_less_or_eq hv0 hm hless with hv0m | rfl
                · rcases hmv with hmlt | rfl
                  · exact Or.inl (less_trans (Or.inl hv0) (Or.inl hm) (Or.inl h1) hv0m hmlt)
                  · exact Or.inl hv0m
                · exact hmv
              · exact h3 t' ht' u hu hus

/-- The scan of NextFromTags finds exactly the greatest parsed stable tag. -/
theorem latestStableMax_isMax {tags : List String} {v : Version}
    (h : latestStableMax none tags = some v) : IsMaxStable tags v := by
  obtain ⟨h1, -, h3⟩ := latestStableMax_ge tags none v (by simp) h
  rcases latestStableMax_some_src tags none v h with hc | ⟨t0, ht0, hp0, hs0⟩
  · exact absurd hc (by simp)
  · refine ⟨⟨t0, ht0, hp0, isStable_iff.mp hs0⟩, ?_⟩
    rintro u ⟨t1, ht1, hp1, hu1⟩
    exact h3 t1 ht1 u hp1 hu1

theorem noStable_iff {tags : List String} :
    (∀ t ∈ tags, ∀ u, parseTag t = some u → u.isStable = false) ↔
      ∀ u, ¬ StableIn tags u := by
  constructor
  · rintro h u ⟨t, ht, hp, hs⟩
    have := h t ht u hp
    rw [← isStable_iff] at hs
    rw [hs] at this
    exact absurd this (by simp)
  · intro h t ht u hp
    by_contra hne
    have hs : u.isStable = true := by
      cases hh : u.isStable
      · exact absurd hh hne
      · rfl
    exact h u ⟨t, ht, hp, isStable_iff.mp hs⟩

/-- Given a greatest parsed stable tag, the scan returns exactly it. -/
theorem latestStableMax_of_isMax {tags : List String} {v : Version}
    (h : IsMaxStable tags v) : latestStableMax none tags = some v := by
  cases hm : latestStableMax none tags with
  | none =>
    obtain ⟨-, hnone⟩ := (latestStableMax_none_iff tags none).mp hm
    obtain ⟨t0, ht0, hp0, hs0⟩ := h.1
    have := hnone t0 ht0 v hp0
    rw [← isStable_iff] at hs0
    rw [hs0] at this
    exact absurd this (by simp)
  | some w =>
    have hw := latestStableMax_isMax hm
    rcases h.2 w hw.1 with hlt | rfl
    · rcases hw.2 v h.1 with hlt2 | rfl
      · obtain ⟨t0, ht0, hp0, hs0⟩ := h.1
        obtain ⟨t1, ht1, hp1, hs1⟩ := hw.1
        have := less_trans (Or.inl hs0) (Or.inl hs1) (Or.inl hs0) hlt2 hlt
        rw [less_irrefl] at this
        exact absurd this (by simp)
      · rfl
    · rfl


/-- C3: with no mode flags, NextFromTags returns the next patch of the greatest
parsed stable tag, v-prefixed, or v1.0.0 when no stable tag parses; with the
release flag it returns the next minor of the greatest stable tag (the next
major when the major flag is also set), and still v1.0.0 when no stable tag
exists — the major flag has no effect in that case. -/
theorem nextFromTags_stable_modes (tags : List String) :
    ((∀ u, ¬ StableIn tags u) →
      ∀ rel maj : Bool, nextFromTags tags false false rel maj = "v1.0.0") ∧
    (∀ v, IsMaxStable tags v →
      nextFromTags tags false false false false = v.nextPatch.stringWithV ∧
      nextFromTags tags false false true false = v.nextMinor.stringWithV ∧
      nextFromTags tags false false true true = v.nextMajor.stringWithV) := by
  constructor
  · intro hno rel maj
    have hacc : (tags.foldl scanStep ⟨none, [], []⟩).maxStable = none := by
      rw [scan_maxStable]
      exact (latestStableMax_none_iff tags none).mpr ⟨rfl, noStable_iff.mpr hno⟩
    unfold nextFromTags
    simp only [Bool.false_eq_true, if_false, hacc]
  · intro v hv
    have hacc : (tags.foldl scanStep ⟨none, [], []⟩).maxStable = some v := by
      rw [scan_maxStable]
      exact latestStableMax_of_isMax hv
    refine ⟨?_, ?_, ?_⟩ <;>
      · unfold nextFromTags
        simp [hacc]

/-- Concrete instance of C3 at tags [v1.2.3, junk, 1.2.4rc0] and [9.9.9rc1]. -/
theorem nextFromTags_stable_modes_witness :
    nextFromTags ["v1.2.3", "junk", "1.2.4rc0"] false false false false = "v1.2.4" ∧
    nextFromTags ["v1.2.3", "junk", "1.2.4rc0"] false false true false = "v1.3.0" ∧
    nextFromTags ["v1.2.3", "junk", "1.2.4rc0"] false false true true = "v2.0.0" ∧
    nextFromTags ["9.9.9rc1"] false false true true = "v1.0.0" := by
  have hmax : IsMaxStable ["v1.2.3", "junk", "1.2.4rc0"] ⟨1, 2, 3, "", 0⟩ := by
    constructor
    · exact ⟨"v1.2.3", by simp, rfl, rfl⟩
    · rintro u ⟨t, ht, hp, hs⟩
      simp only [List.mem_cons, List.not_mem_nil, or_false] at ht
      rcases ht with rfl | rfl | rfl
      · have heq : parseTag "v1.2.3" = some ⟨1, 2, 3, "", 0⟩ := rfl
        rw [heq] at hp
        right
        exact (Option.some_inj.mp hp).symm
      · exact absurd hp (by simp [show parseTag "junk" = none from rfl])
      · have heq : parseTag "1.2.4rc0" = some ⟨1, 2, 4, "rc", 0⟩ := rfl
        rw [heq] at hp
        rw [← Option.some_inj.mp hp] at hs
        exact absurd hs (by simp)
  have hno : ∀ u, ¬ StableIn ["9.9.9rc1"] u := by
    rintro u ⟨t, ht, hp, hs⟩
    simp only [List.mem_cons, List.not_mem_nil, or_false] at ht
    rcases ht with rfl
    have heq : parseTag "9.9.9rc1" = some ⟨9, 9, 9, "rc", 1⟩ := rfl
    rw [heq] at hp
    rw [← Option.some_inj.mp hp] at hs
    exact absurd hs (by simp)
  obtain ⟨h1, h2, h3⟩ := (nextFromTags_stable_modes ["v1.2.3", "junk", "1.2.4rc0"]).2 _ hmax
  exact ⟨h1, h2, h3, (nextFromTags_stable_modes ["9.9.9rc1"]).1 hno true true⟩


theorem lookupBase_append_single (m : List ((Nat × Nat × Nat) × Nat))
    (key k : Nat × Nat × Nat) (n : Nat) :
    lookupBase (m ++ [(key, n)]) k =
      match lookupBase m k with
      | some c => some c
      | none => if key = k then some n else none := by
  induction m with
  | nil => simp [lookupBase]
  | cons kv m ih =>
    by_cases h : kv.1 = k
    · simp [lookupBase, h]
    · simp only [List.cons_append, lookupBase, if_neg h]
      exact ih

theorem lookupBase_map_replace (m : List ((Nat × Nat × Nat) × Nat))
    (key k : Nat × Nat × Nat) (n : Nat) :
    lookupBase (m.map (fun kv => if kv.1 = key then (key, n) else kv)) k =
      match lookupBase m k with
      | some c => if k = key then some n else some c
      | none => none := by
  induction m with
  | nil => simp [lookupBase]
  | cons kv m ih =>
    simp only [List.map_cons, lookupBase]
    by_cases h : kv.1 = key <;> by_cases h2 : kv.1 = k <;> by_cases h3 : k = key <;>
      simp_all [lookupBase]

theorem lookup_updateBases (m : List ((Nat × Nat × Nat) × Nat)) (key k : Nat × Nat × Nat)
    (n : Nat) :
    lookupBase (updateBases m key n) k =
      if k = key then
        (match lookupBase m key with
         | none => some n
         | some c => some (max c n))
      else lookupBase m k := by
  unfold updateBases
  cases h : lookupBase m key with
  | none =>
    dsimp only
    rw [lookupBase_append_single]
    by_cases hk : k = key
    · subst hk
      rw [h]
    · have hne : key ≠ k := fun he => hk he.symm
      cases h2 : lookupBase m k <;> simp [hk, hne]
  | some c =>
    dsimp only
    by_cases hcn : c < n
    · rw [if_pos hcn, lookupBase_map_replace]
      by_cases hk : k = key
      · subst hk
        rw [h]
        simp [Nat.max_eq_right (Nat.le_of_lt hcn)]
      · cases h2 : lookupBase m k <;> simp [hk]
    · rw [if_neg hcn]
      by_cases hk : k = key
      · subst hk
        rw [h]
        simp [Nat.max_eq_left (Nat.le_of_not_lt hcn)]
      · simp [hk]

theorem mem_updateBases {kv : (Nat × Nat × Nat) × Nat} {m : List ((Nat × Nat × Nat) × Nat)}
    {key : Nat × Nat × Nat} {n : Nat} (h : kv ∈ updateBases m key n) :
    kv ∈ m ∨ kv = (key, n) := by
  unfold updateBases at h
  cases hl : lookupBase m key with
  | none =>
    simp only [hl] at h
    rcases List.mem_append.mp h with h1 | h1
    · exact Or.inl h1
    · simp at h1
      exact Or.inr h1
  | some c =>
    simp only [hl] at h
    by_cases hcn : c < n
    · rw [if_pos hcn] at h
      rcases List.mem_map.mp h with ⟨kv0, hkv0, heq⟩
      by_cases hk : kv0.1 = key
      · rw [if_pos hk] at heq
        exact Or.inr heq.symm
      · rw [if_neg hk] at heq
        rw [← heq]
        exact Or.inl hkv0
    · rw [if_neg hcn] at h
      exact Or.inl h

theorem lookupBase_isSome_of_mem {kv : (Nat × Nat × Nat) × Nat}
    {m : List ((Nat × Nat × Nat) × Nat)} (h : kv ∈ m) :
    lookupBase m kv.1 ≠ none := by
  induction m with
  | nil => simp at h
  | cons kv0 m ih =>
    rcases List.mem_cons.mp h with rfl | h
    · simp [lookupBase]
    · unfold lookupBase
      split
      · simp
      · exact ih h


/-- Some tag of the list parses to a prerelease of the given kind at the given
base triple, with the given prerelease number. -/
def PreAt (tags : List String) (kind : String) (key : Nat × Nat × Nat) (n : Nat) : Prop :=
  ∃ t ∈ tags, ∃ u, parseTag t = some u ∧ u.preKind = kind ∧
    (u.major, u.minor, u.patch) = key ∧ u.preNum = n

theorem PreAt_cons {t : String} {ts : List String} {kind : String} {key : Nat × Nat × Nat}
    {n : Nat} :
    PreAt (t :: ts) kind key n ↔
      (∃ u, parseTag t = some u ∧ u.preKind = kind ∧ (u.major, u.minor, u.patch) = key ∧
        u.preNum = n) ∨ PreAt ts kind key n := by
  unfold PreAt
  constructor
  · rintro ⟨t', ht', u, hu⟩
    rcases List.mem_cons.mp ht' with rfl | ht'
    · exact Or.inl ⟨u, hu⟩
    · exact Or.inr ⟨t', ht', u, hu⟩
  · rintro (⟨u, hu⟩ | ⟨t', ht', u, hu⟩)
    · exact ⟨t, by simp, u, hu⟩
    · exact ⟨t', by simp [ht'], u, hu⟩

theorem preBases_lookup_spec (kind : String) : ∀ (ts : List String)
    (m : List ((Nat × Nat × Nat) × Nat)) (key : Nat × Nat × Nat),
    (lookupBase (preBases kind m ts) key = none ↔
      (lookupBase m key = none ∧ ∀ n, ¬ PreAt ts kind key n)) ∧
    (∀ n, lookupBase (preBases kind m ts) key = some n ↔
      ((lookupBase m key = some n ∨ PreAt ts kind key n) ∧
       (∀ j, lookupBase m key = some j → j ≤ n) ∧
       (∀ j, PreAt ts kind key j → j ≤ n))) := by
  intro ts
  induction ts with
  | nil =>
    intro m key
    constructor
    · simp [preBases, PreAt]
    · intro n
      simp only [preBases]
      constructor
      · intro h
        refine ⟨Or.inl h, ?_, ?_⟩
        · intro j hj
          rw [h] at hj
          exact Nat.le_of_eq (Option.some_inj.mp hj).symm
        · rintro j ⟨t, ht, -⟩
          simp at ht
      · rintro ⟨h1 | h1, -, -⟩
        · exact h1
        · rcases h1 with ⟨t, ht, -⟩
          simp at ht
  | cons t ts ih =>
    intro m key
    cases hp : parseTag t with
    | none =>
      have hPre : ∀ j, PreAt (t :: ts) kind key j ↔ PreAt ts kind key j := by
        intro j
        rw [PreAt_cons]
        constructor
        · rintro (⟨u, hu, -⟩ | h)
          · rw [hp] at hu
            exact absurd hu (by simp)
          · exact h
        · exact Or.inr
      simp only [preBases, hp]
      obtain ⟨ihn, ihs⟩ := ih m key
      refine ⟨?_, ?_⟩
      · rw [ihn]
        constructor
        · rintro ⟨h1, h2⟩
          exact ⟨h1, fun j hj => h2 j ((hPre j).mp hj)⟩
        · rintro ⟨h1, h2⟩
          exact ⟨h1, fun j hj => h2 j ((hPre j).mpr hj)⟩
      · intro n
        rw [ihs n]
        constructor
        · rintro ⟨h1, h2, h3⟩
          refine ⟨?_, h2, fun j hj => h3 j ((hPre j).mp hj)⟩
          rcases h1 with h1 | h1
          · exact Or.inl h1
          · exact Or.inr ((hPre n).mpr h1)
        · rintro ⟨h1, h2, h3⟩
          refine ⟨?_, h2, fun j hj => h3 j ((hPre j).mpr hj)⟩
          rcases h1 with h1 | h1
          · exact Or.inl h1
          · exact Or.inr ((hPre n).mp h1)
    | some u =>
      cases hkb : u.preKind == kind with
      | false =>
        have hkne : u.preKind ≠ kind := by simpa using hkb
        have hPre : ∀ j, PreAt (t :: ts) kind key j ↔ PreAt ts kind key j := by
          intro j
          rw [PreAt_cons]
          constructor
          · rintro (⟨u', hu', hk', -⟩ | h)
            · rw [hp] at hu'
              rw [← Option.some_inj.mp hu'] at hk'
              exact absurd hk' hkne
            · exact h
          · exact Or.inr
        simp only [preBases, hp, hkb]
        rw [if_neg Bool.false_ne_true]
        obtain ⟨ihn, ihs⟩ := ih m key
        refine ⟨?_, ?_⟩
        · rw [ihn]
          constructor
          · rintro ⟨h1, h2⟩
            exact ⟨h1, fun j hj => h2 j ((hPre j).mp hj)⟩
          · rintro ⟨h1, h2⟩
            exact ⟨h1, fun j hj => h2 j ((hPre j).mpr hj)⟩
        · intro n
          rw [ihs n]
          constructor
          · rintro ⟨h1, h2, h3⟩
            refine ⟨?_, h2, fun j hj => h3 j ((hPre j).mp hj)⟩
            rcases h1 with h1 | h1
            · exact Or.inl h1
            · exact Or.inr ((hPre n).mpr h1)
          · rintro ⟨h1, h2, h3⟩
            refine ⟨?_, h2, fun j hj => h3 j ((hPre j).mpr hj)⟩
            rcases h1 with h1 | h1
            · exact Or.inl h1
            · exact Or.inr ((hPre n).mp h1)
      | true =>
        have hk : u.preKind = kind := by simpa using hkb
        by_cases hkey : (u.major, u.minor, u.patch) = key
        · have hPre : ∀ j, PreAt (t :: ts) kind key j ↔
              (j = u.preNum ∨ PreAt ts kind key j) := by
            intro j
            rw [PreAt_cons]
            constructor
            · rintro (⟨u', hu', -, -, hnum⟩ | h)
              · rw [hp] at hu'
                rw [← Option.some_inj.mp hu'] at hnum
                exact Or.inl hnum.symm
              · exact Or.inr h
            · rintro (rfl | h)
              · exact Or.inl ⟨u, hp, hk, hkey, rfl⟩
              · exact Or.inr h
          have hself : PreAt (t :: ts) kind key u.preNum := (hPre u.preNum).mpr (Or.inl rfl)
          simp only [preBases, hp, hkb]
          rw [if_true]
          obtain ⟨ihn, ihs⟩ := ih (updateBases m (u.major, u.minor, u.patch) u.preNum) key
          have hL : lookupBase (updateBases m (u.major, u.minor, u.patch) u.preNum) key =
              match lookupBase m key with
              | none => some u.preNum
              | some c => some (max c u.preNum) := by
            rw [lookup_updateBases]
            rw [if_pos hkey.symm]
            rw [hkey]
          refine ⟨?_, ?_⟩
          · rw [ihn]
            constructor
            · rintro ⟨h1, -⟩
              rw [hL] at h1
              cases hM : lookupBase m key with
              | none =>
                simp only [hM] at h1
                exact absurd h1 (by simp)
              | some c =>
                simp only [hM] at h1
                exact absurd h1 (by simp)
            · rintro ⟨-, h2⟩
              exact absurd hself (h2 u.preNum)
          · intro n
            rw [ihs n]
            cases hM : lookupBase m key with
            | none =>
              simp only [hM] at hL
              constructor
              · rintro ⟨h1, h2, h3⟩
                refine ⟨?_, ?_, ?_⟩
                · rcases h1 with h1 | h1
                  · rw [hL] at h1
                    exact Or.inr ((hPre n).mpr (Or.inl (Option.some_inj.mp h1).symm))
                  · exact Or.inr ((hPre n).mpr (Or.inr h1))
                · intro j hj
                  exact absurd hj (by simp)
                · intro j hj
                  rcases (hPre j).mp hj with rfl | hj2
                  · exact h2 _ hL
                  · exact h3 j hj2
              · rintro ⟨h1, h2, h3⟩
                have hpn : u.preNum ≤ n := h3 u.preNum hself
                refine ⟨?_, ?_, ?_⟩
                · rcases h1 with h1 | h1
                  · exact absurd h1 (by simp)
                  · rcases (hPre n).mp h1 with rfl | h1b
                    · exact Or.inl hL
                    · exact Or.inr h1b
                · intro j hj
                  rw [hL] at hj
                  have hj2 : u.preNum = j := Option.some_inj.mp hj
                  omega
                · intro j hj
                  exact h3 j ((hPre j).mpr (Or.inr hj))
            | some c =>
              simp only [hM] at hL
              constructor
              · rintro ⟨h1, h2, h3⟩
                have hmax : max c u.preNum ≤ n := h2 _ hL
                refine ⟨?_, ?_, ?_⟩
                · rcases h1 with h1 | h1
                  · rw [hL] at h1
                    have hn : n = max c u.preNum := (Option.some_inj.mp h1).symm
                    rcases Nat.le_total c u.preNum with hcu | hcu
                    · refine Or.inr ((hPre n).mpr (Or.inl ?_))
                      omega
                    · refine Or.inl ?_
                      congr 1
                      omega
                  · exact Or.inr ((hPre n).mpr (Or.inr h1))
                · intro j hj
                  have hj2 : c = j := Option.some_inj.mp hj
                  omega
                · intro j hj
                  rcases (hPre j).mp hj with rfl | hj2
                  · omega
                  · exact h3 j hj2
              · rintro ⟨h1, h2, h3⟩
                have hpn : u.preNum ≤ n := h3 u.preNum hself
                have hcn : c ≤ n := h2 c rfl
                refine ⟨?_, ?_, ?_⟩
                · rcases h1 with h1 | h1
                  · have hc : c = n := Option.some_inj.mp h1
                    refine Or.inl ?_
                    rw [hL]
                    congr 1
                    omega
                  · rcases (hPre n).mp h1 with rfl | h1b
                    · refine Or.inl ?_
                      rw [hL]
                      congr 1
                      omega
                    · exact Or.inr h1b
                · intro j hj
                  rw [hL] at hj
                  have hj2 : max c u.preNum = j := Option.some_inj.mp hj
                  omega
                · intro j hj
                  exact h3 j ((hPre j).mpr (Or.inr hj))
        · have hPre : ∀ j, PreAt (t :: ts) kind key j ↔ PreAt ts kind key j := by
            intro j
            rw [PreAt_cons]
            constructor
            · rintro (⟨u', hu', -, hkey', -⟩ | h)
              · rw [hp] at hu'
                rw [← Option.some_inj.mp hu'] at hkey'
                exact absurd hkey' hkey
              · exact h
            · exact Or.inr
          simp only [preBases, hp, hkb]
          rw [if_true]
          obtain ⟨ihn, ihs⟩ := ih (updateBases m (u.major, u.minor, u.patch) u.preNum) key
          have hL : lookupBase (updateBases m (u.major, u.minor, u.patch) u.preNum) key =
              lookupBase m key := by
            rw [lookup_updateBases]
            rw [if_neg (fun he => hkey he.symm)]
          refine ⟨?_, ?_⟩
          · rw [ihn, hL]
            constructor
            · rintro ⟨h1, h2⟩
              exact ⟨h1, fun j hj => h2 j ((hPre j).mp hj)⟩
            · rintro ⟨h1, h2⟩
              exact ⟨h1, fun j hj => h2 j ((hPre j).mpr hj)⟩
          · intro n
            rw [ihs n, hL]
            constructor
            · rintro ⟨h1, h2, h3⟩
              refine ⟨?_, h2, fun j hj => h3 j ((hPre j).mp hj)⟩
              rcases h1 with h1 | h1
              · exact Or.inl h1
              · exact Or.inr ((hPre n).mpr h1)
            · rintro ⟨h1, h2, h3⟩
              refine ⟨?_, h2, fun j hj => h3 j ((hPre j).mpr hj)⟩
              rcases h1 with h1 | h1
              · exact Or.inl h1
              · exact Or.inr ((hPre n).mp h1)


theorem lookupBase_some_mem : ∀ (m : List ((Nat × Nat × Nat) × Nat)) (key : Nat × Nat × Nat)
    (n : Nat), lookupBase m key = some n → (key, n) ∈ m := by
  intro m
  induction m with
  | nil => intro key n h; simp [lookupBase] at h
  | cons kv m ih =>
    intro key n h
    unfold lookupBase at h
    by_cases hk : kv.1 = key
    · rw [if_pos hk] at h
      have h2 : kv.2 = n := Option.some_inj.mp h
      have hkv : (key, n) = kv := by rw [← hk, ← h2]
      rw [hkv]
      exact List.mem_cons_self _ _
    · rw [if_neg hk] at h
      exact List.mem_cons_of_mem _ (ih key n h)

theorem mem_preBases (kind : String) : ∀ (ts : List String)
    (m : List ((Nat × Nat × Nat) × Nat)) (kv : (Nat × Nat × Nat) × Nat),
    kv ∈ preBases kind m ts → kv ∈ m ∨ ∃ n, PreAt ts kind kv.1 n := by
  intro ts
  induction ts with
  | nil => intro m kv h; exact Or.inl h
  | cons t ts ih =>
    intro m kv h
    simp only [preBases] at h
    cases hp : parseTag t with
    | none =>
      simp only [hp] at h
      rcases ih m kv h with h1 | ⟨n, h1⟩
      · exact Or.inl h1
      · exact Or.inr ⟨n, PreAt_cons.mpr (Or.inr h1)⟩
    | some u =>
      cases hkb : u.preKind == kind with
      | false =>
        simp only [hp, hkb] at h
        rw [if_neg Bool.false_ne_true] at h
        rcases ih m kv h with h1 | ⟨n, h1⟩
        · exact Or.inl h1
        · exact Or.inr ⟨n, PreAt_cons.mpr (Or.inr h1)⟩
      | true =>
        have hk : u.preKind = kind := by simpa using hkb
        simp only [hp, hkb] at h
        rw [if_true] at h
        rcases ih _ kv h with h1 | ⟨n, h1⟩
        · rcases mem_updateBases h1 with h2 | h2
          · exact Or.inl h2
          · refine Or.inr ⟨u.preNum, PreAt_cons.mpr (Or.inl ⟨u, hp, hk, ?_, rfl⟩)⟩
            rw [h2]
        · exact Or.inr ⟨n, PreAt_cons.mpr (Or.inr h1)⟩

theorem maxOfCandidates_spec : ∀ (rest : List Version) (first : Version),
    first.preKind = "" → (∀ c ∈ rest, c.preKind = "") →
    (maxOfCandidates first rest = first ∨ maxOfCandidates first rest ∈ rest) ∧
    (maxOfCandidates first rest).preKind = "" ∧
    (∀ c ∈ first :: rest,
      c.less (maxOfCandidates first rest) = true ∨ c = maxOfCandidates first rest) := by
  intro rest
  induction rest with
  | nil =>
    intro first hf _
    refine ⟨Or.inl rfl, hf, ?_⟩
    intro c hc
    simp only [List.mem_singleton] at hc
    exact Or.inr hc
  | cons c cs ih =>
    intro first hf hcs
    have hc : c.preKind = "" := hcs c (by simp)
    have hcs' : ∀ x ∈ cs, x.preKind = "" := fun x hx => hcs x (by simp [hx])
    have hstep : maxOfCandidates first (c :: cs) =
        maxOfCandidates (if first.less c then c else first) cs := by
      unfold maxOfCandidates
      rw [List.foldl_cons]
    by_cases hless : first.less c = true
    · rw [hstep, if_pos hless]
      obtain ⟨hmem, hstab, hge⟩ := ih c hc hcs'
      refine ⟨?_, hstab, ?_⟩
      · rcases hmem with h | h
        · exact Or.inr (by simp [h])
        · exact Or.inr (by simp [h])
      · intro x hx
        rcases List.mem_cons.mp hx with rfl | hx2
        · rcases hge c (by simp) with h | h
          · exact Or.inl (less_trans (Or.inl hf) (Or.inl hc) (Or.inl hstab) hless h)
          · rw [← h]
            exact Or.inl hless
        · exact hge x hx2
    · rw [hstep, if_neg hless]
      obtain ⟨hmem, hstab, hge⟩ := ih first hf hcs'
      refine ⟨?_, hstab, ?_⟩
      · rcases hmem with h | h
        · exact Or.inl h
        · exact Or.inr (by simp [h])
      · intro x hx
        rcases List.mem_cons.mp hx with rfl | hx2
        · exact hge x (by simp)
        · rcases List.mem_cons.mp hx2 with rfl | hx3
          · rcases stable_less_or_eq hc hf hless with h | h
            · rcases hge first (by simp) with h2 | h2
              · exact Or.inl (less_trans (Or.inl hc) (Or.inl hf) (Or.inl hstab) h h2)
              · rw [← h2]
                exact Or.inl h
            · rw [h]
              exact hge first (by simp)
          · exact hge x (by simp [hx3])


/-- The candidate-base set of the spec for the rc/alpha modes: the next patch
of the greatest parsed stable tag (1.0.0 when no stable tag exists), together
with the base triple of every existing tag of the requested prerelease kind. -/
def CandidateBase (tags : List String) (kind : String) (c : Version) : Prop :=
  ((∀ u, ¬ StableIn tags u) ∧ c = ⟨1, 0, 0, "", 0⟩) ∨
  (∃ v, IsMaxStable tags v ∧ c = v.nextPatch) ∨
  (∃ key n, PreAt tags kind key n ∧ c = versionOfKey key)

/-- n is the greatest prerelease number of the requested kind at exactly the
base triple of b. -/
def MaxPreAt (tags : List String) (kind : String) (b : Version) (n : Nat) : Prop :=
  PreAt tags kind (b.major, b.minor, b.patch) n ∧
  ∀ j, PreAt tags kind (b.major, b.minor, b.patch) j → j ≤ n

theorem preSelect_spec (tags : List String) (kind : String) (first base : Version)
    (hfirst : first = (match latestStableMax none tags with
      | some v => v.nextPatch
      | none => ⟨1, 0, 0, "", 0⟩))
    (hbase : base = maxOfCandidates first
      ((preBases kind [] tags).map (fun kv => versionOfKey kv.1))) :
    base.preKind = "" ∧ CandidateBase tags kind base ∧
    (∀ c, CandidateBase tags kind c → c.less base = true ∨ c = base) ∧
    ((∃ n, MaxPreAt tags kind base n ∧
        lookupBase (preBases kind [] tags) (base.major, base.minor, base.patch) = some n) ∨
     ((∀ n, ¬ PreAt tags kind (base.major, base.minor, base.patch) n) ∧
        lookupBase (preBases kind [] tags) (base.major, base.minor, base.patch) = none)) := by
  have hfs : first.preKind = "" := by
    rw [hfirst]
    cases latestStableMax none tags <;> rfl
  have hcs : ∀ c ∈ (preBases kind [] tags).map (fun kv => versionOfKey kv.1),
      c.preKind = "" := by
    intro c hc
    rcases List.mem_map.mp hc with ⟨kv, -, rfl⟩
    rfl
  obtain ⟨hmem, hstab, hge⟩ := maxOfCandidates_spec _ first hfs hcs
  rw [← hbase] at hmem hstab hge
  refine ⟨hstab, ?_, ?_, ?_⟩
  · rcases hmem with hb | hb
    · rw [hb, hfirst]
      cases hsm : latestStableMax none tags with
      | none =>
        refine Or.inl ⟨?_, rfl⟩
        have := (latestStableMax_none_iff tags none).mp hsm
        exact noStable_iff.mp this.2
      | some v =>
        exact Or.inr (Or.inl ⟨v, latestStableMax_isMax hsm, rfl⟩)
    · rcases List.mem_map.mp hb with ⟨kv, hkv, hbk⟩
      rcases mem_preBases kind tags [] kv hkv with h | ⟨n, hn⟩
      · simp at h
      · exact Or.inr (Or.inr ⟨kv.1, n, hn, hbk.symm⟩)
  · intro c hc
    have hcin : c ∈ first :: (preBases kind [] tags).map (fun kv => versionOfKey kv.1) := by
      rcases hc with ⟨hno, rfl⟩ | ⟨v, hv, rfl⟩ | ⟨key, n, hn, rfl⟩
      · have hf1 : first = ⟨1, 0, 0, "", 0⟩ := by
          rw [hfirst]
          cases hsm : latestStableMax none tags with
          | none => rfl
          | some v => exact absurd (latestStableMax_isMax hsm).1 (hno v)
        rw [← hf1]
        exact List.mem_cons_self _ _
      · have hf1 : first = v.nextPatch := by
          rw [hfirst, latestStableMax_of_isMax hv]
        rw [← hf1]
        exact List.mem_cons_self _ _
      · right
        have hne : lookupBase (preBases kind [] tags) key ≠ none := by
          intro hnone
          have := ((preBases_lookup_spec kind tags [] key).1.mp hnone).2
          exact this n hn
        cases hlk : lookupBase (preBases kind [] tags) key with
        | none => exact absurd hlk hne
        | some j =>
          refine List.mem_map.mpr ⟨(key, j), ?_, rfl⟩
          exact lookupBase_some_mem _ key j hlk
    exact hge c hcin
  · cases hlk : lookupBase (preBases kind [] tags) (base.major, base.minor, base.patch) with
    | none =>
      refine Or.inr ⟨?_, rfl⟩
      exact ((preBases_lookup_spec kind tags [] _).1.mp hlk).2
    | some n =>
      obtain ⟨h1, -, h3⟩ := ((preBases_lookup_spec kind tags [] _).2 n).mp hlk
      rcases h1 with h1 | h1
      · exact absurd h1 (by simp [lookupBase])
      · exact Or.inl ⟨n, ⟨h1, h3⟩, rfl⟩


/-- C2: in rc (respectively alpha) mode NextFromTags takes as base the maximum
of the candidate set consisting of the next patch of the greatest parsed
stable tag (1.0.0 when no stable tag exists) together with the base triple of
every existing tag of the requested prerelease kind, and returns that base
with preNum one more than the greatest existing preNum at exactly that base
and kind, or preNum 0 when no such tag exists; in particular an existing
1.2.4rc3 with no stable 1.2.4 still yields 1.2.4rc4. -/
theorem nextFromTags_pre_modes (tags : List String) (rel maj : Bool) :
    (∃ base : Version, base.preKind = "" ∧ CandidateBase tags "rc" base ∧
      (∀ c, CandidateBase tags "rc" c → c.less base = true ∨ c = base) ∧
      ((∃ n, MaxPreAt tags "rc" base n ∧
          nextFromTags tags true false rel maj =
            (Version.mk base.major base.minor base.patch "rc" (n + 1)).toTagString) ∨
       ((∀ n, ¬ PreAt tags "rc" (base.major, base.minor, base.patch) n) ∧
          nextFromTags tags true false rel maj =
            (Version.mk base.major base.minor base.patch "rc" 0).toTagString))) ∧
    (∃ base : Version, base.preKind = "" ∧ CandidateBase tags "a" base ∧
      (∀ c, CandidateBase tags "a" c → c.less base = true ∨ c = base) ∧
      ((∃ n, MaxPreAt tags "a" base n ∧
          nextFromTags tags false true rel maj =
            (Version.mk base.major base.minor base.patch "a" (n + 1)).toTagString) ∨
       ((∀ n, ¬ PreAt tags "a" (base.major, base.minor, base.patch) n) ∧
          nextFromTags tags false true rel maj =
            (Version.mk base.major base.minor base.patch "a" 0).toTagString))) ∧
    nextFromTags ["v1.2.3", "1.2.4rc3"] true false false false = "1.2.4rc4" := by
  refine ⟨?_, ?_, by decide⟩
  · set first : Version := (match latestStableMax none tags with
      | some v => v.nextPatch
      | none => ⟨1, 0, 0, "", 0⟩) with hfirst
    set B : Version := maxOfCandidates first
      ((preBases "rc" [] tags).map (fun kv => versionOfKey kv.1)) with hB
    have heval : nextFromTags tags true false rel maj =
        (match lookupBase (preBases "rc" [] tags) (B.major, B.minor, B.patch) with
          | some n => (B.nextRC (some n)).toTagString
          | none => (B.nextRC none).toTagString) := by
      unfold nextFromTags
      rw [if_pos rfl]
      dsimp only
      rw [scan_maxStable, scan_rcBases]
    obtain ⟨h1, h2, h3, h4⟩ := preSelect_spec tags "rc" first B hfirst hB
    refine ⟨B, h1, h2, h3, ?_⟩
    rcases h4 with ⟨n, hmax, hlk⟩ | ⟨hno, hlk⟩
    · left
      refine ⟨n, hmax, ?_⟩
      rw [heval, hlk]
      rfl
    · right
      refine ⟨hno, ?_⟩
      rw [heval, hlk]
      rfl
  · set first : Version := (match latestStableMax none tags with
      | some v => v.nextPatch
      | none => ⟨1, 0, 0, "", 0⟩) with hfirst
    set B : Version := maxOfCandidates first
      ((preBases "a" [] tags).map (fun kv => versionOfKey kv.1)) with hB
    have heval : nextFromTags tags false true rel maj =
        (match lookupBase (preBases "a" [] tags) (B.major, B.minor, B.patch) with
          | some n => (B.nextAlpha (some n)).toTagString
          | none => (B.nextAlpha none).toTagString) := by
      unfold nextFromTags
      rw [if_neg Bool.false_ne_true, if_pos rfl]
      dsimp only
      rw [scan_maxStable, scan_alphaBases]
    obtain ⟨h1, h2, h3, h4⟩ := preSelect_spec tags "a" first B hfirst hB
    refine ⟨B, h1, h2, h3, ?_⟩
    rcases h4 with ⟨n, hmax, hlk⟩ | ⟨hno, hlk⟩
    · left
      refine ⟨n, hmax, ?_⟩
      rw [heval, hlk]
      rfl
    · right
      refine ⟨hno, ?_⟩
      rw [heval, hlk]
      rfl

/-- Concrete instance of C2: an existing 1.2.4rc3 with no stable 1.2.4 yields
1.2.4rc4. -/
theorem nextFromTags_pre_modes_witness :
    nextFromTags ["v1.2.3", "1.2.4rc3"] true false false false = "1.2.4rc4" :=
  (nextFromTags_pre_modes [] false false).2.2

end Semver

namespace Workflows

open Semver (trimSpaceGo goIsSpace)

/-- strings.TrimSpace on a String. -/
def trimStr (s : String) : String := String.mk (trimSpaceGo s.toList)

/-- ASCII lower-casing of one character. -/
def asciiToLower (c : Char) : Char :=
  if 'A' ≤ c ∧ c ≤ 'Z' then Char.ofNat (c.toNat + 32) else c

/-- strings.ToLower; the keys compared here are ASCII, where per-character
ASCII lowering agrees with Go. -/
def goToLower (s : String) : String := String.mk (s.toList.map asciiToLower)

/-! The glob matcher: a translation of Go's path/filepath.Match (unix rules,
Separator = '/'), which TagMatchesPattern calls. Go works byte-wise with utf8
rune decoding; over the character list the two coincide for well-formed
strings. The recursions carry explicit fuel; the budgets passed below cover
every run of the Go original, whose Pattern loop always makes progress on
the pattern or the name. -/

/-- getEsc of filepath/match.go: one (possibly escaped) range endpoint. -/
def getEsc : List Char → Option (Char × List Char)
  | [] => none
  | c :: cs =>
    if c = '-' || c = ']' then none
    else if c = '\\' then
      match cs with
      | [] => none
      | d :: ds => if ds.isEmpty then none else some (d, ds)
    else if cs.isEmpty then none else some (c, cs)

/-- The range-parsing loop of the character-class case of matchChunk. -/
def parseRanges (r : Char) : Nat → List Char → Bool → Nat → Option (Bool × List Char)
  | 0, _, _, _ => none
  | fuel + 1, chunk, matched, nrange =>
    let brk := match chunk with
      | ']' :: _ => decide (nrange > 0)
      | _ => false
    if brk then some (matched, chunk.tail)
    else
      match getEsc chunk with
      | none => none
      | some (lo, chunk1) =>
        let step2 : Option (Char × List Char) :=
          match chunk1 with
          | '-' :: rest => getEsc rest
          | _ => some (lo, chunk1)
        match step2 with
        | none => none
        | some (hi, chunk2) =>
          parseRanges r fuel chunk2 (matched || (decide (lo ≤ r) && decide (r ≤ hi)))
            (nrange + 1)

inductive ChunkRes where
  | ok (rest : List Char)
  | failed
  | bad
deriving DecidableEq, Repr

/-- matchChunk of filepath/match.go: match a chunk (no stars) at the front of
s; on failure it keeps scanning the chunk for well-formedness. -/
def matchChunk : Nat → List Char → List Char → Bool → ChunkRes
  | 0, _, _, _ => .bad
  | fuel + 1, chunk, s, failedFlag =>
    match chunk with
    | [] => if failedFlag then .failed else .ok s
    | c :: cs =>
      let failed1 := failedFlag || s.isEmpty
      if c = '[' then
        let r := if failed1 then Char.ofNat 0 else s.headD (Char.ofNat 0)
        let s1 := if failed1 then s else s.tail
        let negp : Bool × List Char :=
          match cs with
          | '^' :: rest => (true, rest)
          | _ => (false, cs)
        match parseRanges r (negp.2.length + 1) negp.2 false 0 with
        | none => .bad
        | some (matched, cs2) =>
          matchChunk fuel cs2 s1 (failed1 || (matched == negp.1))
      else if c = '?' then
        if failed1 then matchChunk fuel cs s failed1
        else matchChunk fuel cs s.tail (decide (s.headD ' ' = '/'))
      else if c = '\\' then
        match cs with
        | [] => .bad
        | d :: ds =>
          if failed1 then matchChunk fuel ds s failed1
          else matchChunk fuel ds s.tail (decide (d ≠ s.headD ' '))
      else
        if failed1 then matchChunk fuel cs s failed1
        else matchChunk fuel cs s.tail (decide (c ≠ s.headD ' '))

/-- The leading-star strip of scanChunk. -/
def stripStars : List Char → Bool × List Char
  | '*' :: cs => ((stripStars cs).1 || true, (stripStars cs).2)
  | cs => (false, cs)

/-- The scan loop of scanChunk (chunk up to the next star outside a range). -/
def scanChunkScan : List Char → Bool → List Char × List Char
  | [], _ => ([], [])
  | c :: cs, inrange =>
    if c = '\\' then
      match cs with
      | [] => ([c], [])
      | d :: ds =>
        let p := scanChunkScan ds inrange
        (c :: d :: p.1, p.2)
    else if c = '[' then
      let p := scanChunkScan cs true
      (c :: p.1, p.2)
    else if c = ']' then
      let p := scanChunkScan cs false
      (c :: p.1, p.2)
    else if c = '*' ∧ ¬ inrange then ([], c :: cs)
    else
      let p := scanChunkScan cs inrange
      (c :: p.1, p.2)

/-- scanChunk of filepath/match.go. -/
def scanChunk (pattern : List Char) : Bool × List Char × List Char :=
  let p := stripStars pattern
  let q := scanChunkScan p.2 false
  (p.1, q.1, q.2)

mutual

/-- The Pattern loop of filepath.Match. -/
def goMatchAux : Nat → List Char → List Char → Bool
  | 0, _, _ => false
  | fuel + 1, pattern, name =>
    if pattern.isEmpty then name.isEmpty
    else
      let sc := scanChunk pattern
      let star := sc.1
      let chunk := sc.2.1
      let rest := sc.2.2
      if star ∧ chunk = [] then !(name.contains '/')
      else
        match matchChunk (chunk.length + 1) chunk name false with
        | .ok t =>
          if t = [] ∨ rest ≠ [] then goMatchAux fuel rest t
          else if star then goStar fuel chunk rest name else false
        | .failed => if star then goStar fuel chunk rest name else false
        | .bad => false

/-- The star loop of filepath.Match: retry the chunk at each later position of
the name, stopping at a separator. -/
def goStar : Nat → List Char → List Char → List Char → Bool
  | 0, _, _, _ => false
  | _ + 1, _, _, [] => false
  | fuel + 1, chunk, rest, c :: s =>
    if c = '/' then false
    else
      match matchChunk (chunk.length + 1) chunk s false with
      | .ok t =>
        if rest = [] ∧ t ≠ [] then goStar fuel chunk rest s
        else goMatchAux fuel rest t
      | .failed => goStar fuel chunk rest s
      | .bad => false

end

/-- filepath.Match with the error collapsed to false, as the call site
TagMatchesPattern does (matched, _ := filepath.Match(p, tag)). -/
def pathMatch (pattern name : String) : Bool :=
  goMatchAux ((pattern.length + 2) * (name.length + 2)) pattern.toList name.toList

/-- Whether cs starts with pat. -/
def startsWithList : List Char → List Char → Bool
  | _, [] => true
  | [], _ :: _ => false
  | c :: cs, p :: ps => c = p && startsWithList cs ps

/-- strings.ReplaceAll over character lists: leftmost non-overlapping
occurrences of pat are replaced by rep (pat is never empty at the one call
site, so Go's insert-everywhere behaviour for an empty pattern is not
modelled). -/
def replaceAllChars (pat rep : List Char) : Nat → List Char → List Char
  | 0, cs => cs
  | _ + 1, [] => []
  | fuel + 1, c :: cs =>
    if startsWithList (c :: cs) pat ∧ pat ≠ [] then
      rep ++ replaceAllChars pat rep fuel (List.drop pat.length (c :: cs))
    else c :: replaceAllChars pat rep fuel cs

/-- TagMatchesPattern of internal/github/workflows.go. -/
def tagMatchesPattern (tag pattern : String) : Bool :=
  if pattern = "**" || pattern = "*" then true
  else
    pathMatch
      (String.mk (replaceAllChars "**".toList "*".toList (pattern.length + 1) pattern.toList))
      tag


/-- The kinds of yaml.Node the trigger parser distinguishes. -/
inductive YKind where
  | scalar
  | sequence
  | mapping
  | other
deriving DecidableEq, Repr

/-- A yaml.Node as the trigger parser reads it: kind, scalar value, children
(for a mapping, Content alternates keys and values, as in gopkg.in/yaml.v3). -/
inductive YNode where
  | node (kind : YKind) (value : String) (content : List YNode)

def YNode.kind : YNode → YKind
  | .node k _ _ => k

def YNode.value : YNode → String
  | .node _ v _ => v

def YNode.content : YNode → List YNode
  | .node _ _ c => c

/-- parseStringSequence of workflows.go (its error result is always nil). -/
def parseStringSequence (node : Option YNode) : List String :=
  match node with
  | none => []
  | some n =>
    if n.kind = .scalar then
      let s := trimStr n.value
      if s = "" then [] else [s]
    else if n.kind ≠ .sequence then []
    else n.content.filterMap (fun c => if c.kind = .scalar then some (trimStr c.value) else none)

/-- The i, i+1 pairing of a mapping's Content (an unpaired trailing key is
dropped, as the i+1 >= len check does). -/
def pairsOf : List YNode → List (YNode × YNode)
  | k :: v :: rest => (k, v) :: pairsOf rest
  | _ => []

/-- parsePushConfig of workflows.go: interpret the value of the push key. -/
def parsePushConfig (node : Option YNode) : Bool × List String :=
  match node with
  | none => (true, [])
  | some n =>
    if n.kind = .scalar then (true, [])
    else if n.kind ≠ .mapping then (false, [])
    else
      let st := (pairsOf n.content).foldl
        (fun (st : Bool × Bool × List String) kv =>
          if kv.1.kind ≠ .scalar then st
          else
            let key := goToLower (trimStr kv.1.value)
            if key = "tags" then (true, st.2.1, parseStringSequence (some kv.2))
            else if key = "branches" then (st.1, true, st.2.2)
            else st)
        (false, false, [])
      if st.2.1 ∧ ¬ st.1 then (false, [])
      else if st.1 ∧ st.2.2 = [] then (false, [])
      else (true, st.2.2)

/-- parseOnNode of workflows.go: interpret the on declaration. -/
def parseOnNode (node : Option YNode) : Bool × List String :=
  match node with
  | none => (false, [])
  | some n =>
    match n.kind with
    | .scalar =>
      if goToLower (trimStr n.value) = "push" then (true, []) else (false, [])
    | .sequence =>
      if n.content.any (fun c => c.kind == .scalar && goToLower (trimStr c.value) == "push")
      then (true, []) else (false, [])
    | .mapping =>
      match (pairsOf n.content).find? (fun kv =>
          kv.1.kind == .scalar && goToLower (trimStr kv.1.value) == "push") with
      | some kv => parsePushConfig (some kv.2)
      | none => (false, [])
    | .other => (false, [])

/-- WorkflowTrigger of workflows.go (Path, which no claim touches, is
omitted). -/
structure WorkflowTrigger where
  name : String
  runsOnTagPush : Bool
  tagPatterns : List String
deriving DecidableEq, Repr

/-- ParseWorkflowFile, reduced to what the claims read: the resolved workflow
name (doc.Name, or the file basename when empty) and the trigger info parsed
from the on node. -/
def parseWorkflowFile (name : String) (onNode : Option YNode) : WorkflowTrigger :=
  let p := parseOnNode onNode
  ⟨name, p.1, p.2⟩

/-- ParseWorkflowsInRepo over a directory listing abstracted to (name, on
node) pairs: keep exactly the triggers with RunsOnTagPush. -/
def parseWorkflowsInRepo (files : List (String × Option YNode)) : List WorkflowTrigger :=
  files.foldr
    (fun f acc =>
      let trigger := parseWorkflowFile f.1 f.2
      if trigger.runsOnTagPush then trigger :: acc else acc) []

/-- WorkflowsTriggeredByTag of workflows.go. -/
def workflowsTriggeredByTag (files : List (String × Option YNode)) (tag : String) :
    List WorkflowTrigger :=
  (parseWorkflowsInRepo files).filter
    (fun w => w.tagPatterns.isEmpty || w.tagPatterns.any (fun pat => tagMatchesPattern tag pat))

theorem parseWorkflowsInRepo_eq_filter (files : List (String × Option YNode)) :
    parseWorkflowsInRepo files =
      (files.map (fun f => parseWorkflowFile f.1 f.2)).filter (fun w => w.runsOnTagPush) := by
  induction files with
  | nil => rfl
  | cons f fs ih =>
    have hstep : parseWorkflowsInRepo (f :: fs) =
        (if (parseWorkflowFile f.1 f.2).runsOnTagPush then
          parseWorkflowFile f.1 f.2 :: parseWorkflowsInRepo fs
         else parseWorkflowsInRepo fs) := rfl
    rw [hstep, ih]
    cases h : (parseWorkflowFile f.1 f.2).runsOnTagPush <;> simp [h, List.filter_cons]

/-- The workflow file with on.push.tags declared as an explicit empty list. -/
def emptyTagsFile : String × Option YNode :=
  ("w", some (.node .mapping "" [.node .scalar "push" [],
    .node .mapping "" [.node .scalar "tags" [], .node .sequence "" []]]))

/-- The workflow file with only on.push.branches declared. -/
def branchesOnlyFile : String × Option YNode :=
  ("w", some (.node .mapping "" [.node .scalar "push" [],
    .node .mapping "" [.node .scalar "branches" [], .node .sequence "" [.node .scalar "main" []]]]))

/-- The workflow file with on.push.tags declared as the single pattern v*. -/
def vStarFile : String × Option YNode :=
  ("w", some (.node .mapping "" [.node .scalar "push" [],
    .node .mapping "" [.node .scalar "tags" [], .node .sequence "" [.node .scalar "v*" []]]]))

/-- C4: WorkflowsTriggeredByTag returns exactly the parsed triggers with
runsOnTagPush true whose tagPatterns list is empty or has a pattern matching
the tag; consequently a workflow declaring only an empty tags list is never
returned for any tag, a workflow declaring only branches is never returned for
any tag, and a workflow with tags [v*] is returned for tag v1.0.0 but not for
tag foo. -/
theorem workflowsTriggeredByTag_spec :
    (∀ (files : List (String × Option YNode)) (tag : String) (w : WorkflowTrigger),
      w ∈ workflowsTriggeredByTag files tag ↔
        (w ∈ files.map (fun f => parseWorkflowFile f.1 f.2) ∧ w.runsOnTagPush = true ∧
          (w.tagPatterns = [] ∨ ∃ p ∈ w.tagPatterns, tagMatchesPattern tag p = true))) ∧
    (∀ tag, workflowsTriggeredByTag [emptyTagsFile] tag = []) ∧
    (∀ tag, workflowsTriggeredByTag [branchesOnlyFile] tag = []) ∧
    workflowsTriggeredByTag [vStarFile] "v1.0.0" = [⟨"w", true, ["v*"]⟩] ∧
    workflowsTriggeredByTag [vStarFile] "foo" = [] := by
  have hempty : parseWorkflowsInRepo [emptyTagsFile] = [] := by decide
  have hbranches : parseWorkflowsInRepo [branchesOnlyFile] = [] := by decide
  refine ⟨?_,
    fun tag => by rw [workflowsTriggeredByTag, hempty]; rfl,
    fun tag => by rw [workflowsTriggeredByTag, hbranches]; rfl,
    by decide, by decide⟩
  intro files tag w
  unfold workflowsTriggeredByTag
  rw [parseWorkflowsInRepo_eq_filter]
  rw [List.mem_filter, List.mem_filter]
  constructor
  · rintro ⟨⟨hmem, hruns⟩, hpat⟩
    refine ⟨hmem, hruns, ?_⟩
    rcases Bool.or_eq_true _ _ |>.mp hpat with h | h
    · exact Or.inl (List.isEmpty_iff.mp h)
    · rcases List.any_eq_true.mp h with ⟨p, hp, hm⟩
      exact Or.inr ⟨p, hp, hm⟩
  · rintro ⟨hmem, hruns, hpat⟩
    refine ⟨⟨hmem, hruns⟩, ?_⟩
    rcases hpat with h | ⟨p, hp, hm⟩
    · rw [Bool.or_eq_true]
      exact Or.inl (List.isEmpty_iff.mpr h)
    · rw [Bool.or_eq_true]
      exact Or.inr (List.any_eq_true.mpr ⟨p, hp, hm⟩)

end Workflows


namespace Runs

/-- A workflow run as the wait loops read it: GetName, GetStatus and
GetConclusion of go-github, which return the empty string for an absent
field. -/
structure WorkflowRun where
  name : String
  status : String
  conclusion : String
deriving DecidableEq, Repr

/-- AllRunsFinished of the github package: every run has status completed. -/
def allRunsFinished (runs : List WorkflowRun) : Bool :=
  runs.all (fun r => r.status == "completed")

/-- AnyRunFailed of the github package: some run completed with a conclusion
that is neither success nor empty. -/
def anyRunFailed (runs : List WorkflowRun) : Bool :=
  runs.any (fun r => r.status == "completed" && r.conclusion != "success" && r.conclusion != "")

/-- RunsForTagPushWorkflows of the github package: with known triggers, keep
the runs whose workflow name is a trigger's name (the Go original collects the
names in a set; membership is the same). -/
def runsForTagPushWorkflows (runs : List WorkflowRun)
    (triggers : List Workflows.WorkflowTrigger) : List WorkflowRun :=
  if triggers.length = 0 then runs
  else runs.filter (fun r => triggers.any (fun t => t.name == r.name))

/-- What one iteration of the CI-wait loop of doReleaseSteps decides once the
run list has been fetched. -/
inductive CIDecision where
  | keepWaiting
  | failed
  | succeeded
deriving DecidableEq, Repr

/-- The decision logic of the CI-wait loop body in cmd/root.go doReleaseSteps:
scope the runs to tag-push workflows when triggers are known, keep waiting on
an empty scoped list, require a run per expected workflow and all runs
terminal, then fail if any run failed. -/
def ciStepDecision (runs : List WorkflowRun) (triggers : List Workflows.WorkflowTrigger) :
    CIDecision :=
  let waitedRuns := if triggers.length > 0 then runsForTagPushWorkflows runs triggers else runs
  if waitedRuns.length = 0 then .keepWaiting
  else
    let allSeen := triggers.length == 0 || decide (waitedRuns.length ≥ triggers.length)
    if allSeen && allRunsFinished waitedRuns then
      if anyRunFailed waitedRuns then .failed else .succeeded
    else .keepWaiting

theorem waited_eq (runs : List WorkflowRun) (triggers : List Workflows.WorkflowTrigger) :
    (if triggers.length > 0 then runsForTagPushWorkflows runs triggers else runs) =
      runsForTagPushWorkflows runs triggers := by
  unfold runsForTagPushWorkflows
  rcases Nat.eq_zero_or_pos triggers.length with h | h
  · simp [h]
  · simp [Nat.pos_iff_ne_zero.mp h, h]

/-- The run with empty conclusion on which the claimed equivalence fails. -/
def emptyConclusionRun : WorkflowRun := ⟨"w", "completed", ""⟩

/-- C6 counterexample: a run with status completed and empty conclusion (as
go-github yields while a conclusion is not yet set) satisfies the claim's
failure predicate, yet AnyRunFailed is false — the code also requires a
non-empty conclusion. -/
theorem anyRunFailed_claim_counterexample :
    ¬ (anyRunFailed [emptyConclusionRun] = true ↔
        ∃ r ∈ [emptyConclusionRun], r.status = "completed" ∧ r.conclusion ≠ "success") := by
  decide

/-- C6 amended: AnyRunFailed is true iff some run has status completed and a
conclusion that is neither success nor empty; and an iteration of the CI-wait
step succeeds exactly when the scoped run set is non-empty, contains at least
as many runs as the expected tag-push workflows when those are known, every
scoped run is terminal, and no scoped run failed in that sense; it fails
exactly when the first three hold and some scoped run did fail. -/
theorem ciWait_decision_spec :
    ∀ (runs : List WorkflowRun) (triggers : List Workflows.WorkflowTrigger),
    (anyRunFailed runs = true ↔
      ∃ r ∈ runs, r.status = "completed" ∧ r.conclusion ≠ "success" ∧ r.conclusion ≠ "") ∧
    (allRunsFinished runs = true ↔ ∀ r ∈ runs, r.status = "completed") ∧
    (ciStepDecision runs triggers = .succeeded ↔
      (runsForTagPushWorkflows runs triggers ≠ [] ∧
       (triggers = [] ∨ (runsForTagPushWorkflows runs triggers).length ≥ triggers.length) ∧
       (∀ r ∈ runsForTagPushWorkflows runs triggers, r.status = "completed") ∧
       ¬ ∃ r ∈ runsForTagPushWorkflows runs triggers,
          r.status = "completed" ∧ r.conclusion ≠ "success" ∧ r.conclusion ≠ "")) ∧
    (ciStepDecision runs triggers = .failed ↔
      (runsForTagPushWorkflows runs triggers ≠ [] ∧
       (triggers = [] ∨ (runsForTagPushWorkflows runs triggers).length ≥ triggers.length) ∧
       (∀ r ∈ runsForTagPushWorkflows runs triggers, r.status = "completed") ∧
       ∃ r ∈ runsForTagPushWorkflows runs triggers,
          r.status = "completed" ∧ r.conclusion ≠ "success" ∧ r.conclusion ≠ "")) := by
  intro runs triggers
  have hany : ∀ rs : List WorkflowRun, (anyRunFailed rs = true ↔
      ∃ r ∈ rs, r.status = "completed" ∧ r.conclusion ≠ "success" ∧ r.conclusion ≠ "") := by
    intro rs
    unfold anyRunFailed
    rw [List.any_eq_true]
    constructor
    · rintro ⟨r, hr, hpred⟩
      simp only [Bool.and_eq_true, beq_iff_eq, bne_iff_ne] at hpred
      exact ⟨r, hr, hpred.1.1, hpred.1.2, hpred.2⟩
    · rintro ⟨r, hr, h1, h2, h3⟩
      refine ⟨r, hr, ?_⟩
      simp only [Bool.and_eq_true, beq_iff_eq, bne_iff_ne]
      exact ⟨⟨h1, h2⟩, h3⟩
  have hall : ∀ rs : List WorkflowRun,
      (allRunsFinished rs = true ↔ ∀ r ∈ rs, r.status = "completed") := by
    intro rs
    unfold allRunsFinished
    rw [List.all_eq_true]
    constructor
    · intro h r hr
      simpa using h r hr
    · intro h r hr
      simpa using h r hr
  set W := runsForTagPushWorkflows runs triggers with hW
  have hdec : ciStepDecision runs triggers =
      (if W.length = 0 then .keepWaiting
       else if (triggers.length == 0 || decide (W.length ≥ triggers.length)) &&
           allRunsFinished W then
         if anyRunFailed W then .failed else .succeeded
       else .keepWaiting) := by
    unfold ciStepDecision
    rw [waited_eq]
  have hseen : ((triggers.length == 0 || decide (W.length ≥ triggers.length)) = true) ↔
      (triggers = [] ∨ W.length ≥ triggers.length) := by
    rw [Bool.or_eq_true]
    constructor
    · rintro (h | h)
      · exact Or.inl (List.length_eq_zero.mp (by simpa using h))
      · exact Or.inr (of_decide_eq_true h)
    · rintro (rfl | h)
      · exact Or.inl (by simp)
      · exact Or.inr (decide_eq_true h)
  refine ⟨hany runs, hall runs, ?_, ?_⟩
  · rw [hdec]
    by_cases h0 : W.length = 0
    · rw [if_pos h0]
      simp only [List.length_eq_zero.mp h0]
      constructor
      · intro h
        exact absurd h (by simp)
      · rintro ⟨h, -⟩
        exact absurd rfl h
    · rw [if_neg h0]
      have hne : W ≠ [] := by
        intro h
        rw [h] at h0
        exact h0 rfl
      by_cases hcond : ((triggers.length == 0 || decide (W.length ≥ triggers.length)) &&
          allRunsFinished W) = true
      · rw [if_pos hcond]
        rw [Bool.and_eq_true] at hcond
        by_cases hfail : anyRunFailed W = true
        · rw [if_pos hfail]
          constructor
          · intro h
            exact absurd h (by simp)
          · rintro ⟨-, -, -, hnofail⟩
            exact absurd ((hany W).mp hfail) hnofail
        · rw [if_neg hfail]
          constructor
          · intro _
            refine ⟨hne, hseen.mp hcond.1, (hall W).mp hcond.2, ?_⟩
            intro hex
            exact hfail ((hany W).mpr hex)
          · intro _
            rfl
      · rw [if_neg hcond]
        constructor
        · intro h
          exact absurd h (by simp)
        · rintro ⟨-, hs, hf, -⟩
          exact absurd (by
            rw [Bool.and_eq_true]
            exact ⟨hseen.mpr hs, (hall W).mpr hf⟩) hcond
  · rw [hdec]
    by_cases h0 : W.length = 0
    · rw [if_pos h0]
      simp only [List.length_eq_zero.mp h0]
      constructor
      · intro h
        exact absurd h (by simp)
      · rintro ⟨h, -⟩
        exact absurd rfl h
    · rw [if_neg h0]
      have hne : W ≠ [] := by
        intro h
        rw [h] at h0
        exact h0 rfl
      by_cases hcond : ((triggers.length == 0 || decide (W.length ≥ triggers.length)) &&
          allRunsFinished W) = true
      · rw [if_pos hcond]
        rw [Bool.and_eq_true] at hcond
        by_cases hfail : anyRunFailed W = true
        · rw [if_pos hfail]
          constructor
          · intro _
            exact ⟨hne, hseen.mp hcond.1, (hall W).mp hcond.2, (hany W).mp hfail⟩
          · intro _
            rfl
        · rw [if_neg hfail]
          constructor
          · intro h
            exact absurd h (by simp)
          · rintro ⟨-, -, -, hex⟩
            exact absurd ((hany W).mpr hex) hfail
      · rw [if_neg hcond]
        constructor
        · intro h
          exact absurd h (by simp)
        · rintro ⟨-, hs, hf, -⟩
          exact absurd (by
            rw [Bool.and_eq_true]
            exact ⟨hseen.mpr hs, (hall W).mpr hf⟩) hcond

end Runs

end Releasebot
namespace Releasebot

namespace Wait

/-- One nanosecond-counted second, as Go's time.Duration. -/
def second : Nat := 1000000000

/-- One minute of time.Duration. -/
def minute : Nat := 60 * second

/-- WaitOptions of internal/pypi/pypi.go (the dockerhub package declares the
identical structure). Durations are Nat nanoseconds; the Go fields are
int64 but every value reaching them here is a non-negative duration. -/
structure WaitOptions where
  timeout : Nat
  interval : Nat
deriving DecidableEq, Repr

/-- DefaultWaitOptions of internal/pypi: 5m timeout, 5s interval. -/
def pypiDefaultWaitOptions : WaitOptions := ⟨5 * minute, 5 * second⟩

/-- DefaultWaitOptions of the dockerhub package: 5m timeout, 5s interval. -/
def dockerhubDefaultWaitOptions : WaitOptions := ⟨5 * minute, 5 * second⟩

/-- The zero-value defaulting at the top of pypi.Wait and dockerhub.Wait:
each field falls back independently when it is zero. -/
def effectiveWaitOptions (opts : WaitOptions) : WaitOptions :=
  ⟨if opts.timeout = 0 then 5 * minute else opts.timeout,
   if opts.interval = 0 then 5 * second else opts.interval⟩

/-- The flag default of workflow-timeout in cmd/root.go init: 30m. -/
def workflowTimeoutDefault : Nat := 30 * minute

/-- The flag default of pypi-timeout in cmd/root.go init: 10m. -/
def pypiTimeoutFlagDefault : Nat := 10 * minute

/-- The flag default of docker-timeout in cmd/root.go init: 10m. -/
def dockerTimeoutFlagDefault : Nat := 10 * minute

/-- The poll interval hard-coded in the CI-wait loop of doReleaseSteps: 15s. -/
def ciPollInterval : Nat := 15 * second

/-- The actions wait command's timeout flag default: 30m. -/
def actionsWaitTimeoutDefault : Nat := 30 * minute

/-- The actions wait command's poll-interval flag default: 15s. -/
def actionsPollIntervalDefault : Nat := 15 * second

inductive WaitOutcome where
  | ok
  | timeout (resource : String)
  | checkErr (e : String)
  | diverged
deriving DecidableEq, Repr

/-- The observable result of a wait: its outcome, the total time slept, and
how many times the check ran. -/
structure WaitRun where
  outcome : WaitOutcome
  slept : Nat
  checksMade : Nat
deriving DecidableEq, Repr

/-- The poll loop shared verbatim by pypi.Wait and dockerhub.Wait: call Check,
propagate its error, stop on ready, return the timeout error once the clock is
past the deadline, otherwise sleep one interval and retry. Checks are modelled
as instantaneous, so after i sleeps the clock reads i * interval, and
time.Now().After(deadline) is i * interval > timeout. Context cancellation is
not modelled. The fuel argument only makes the recursion structural: with fuel
at least timeout / interval + 2 and a positive interval it never reaches zero
(the Go loop always terminates then), as waitLoop_timeout below shows. -/
def waitLoop (check : Nat → Bool × Option String) (resource : String)
    (interval timeout : Nat) : Nat → Nat → WaitRun
  | 0, i => ⟨.diverged, i * interval, i⟩
  | fuel + 1, i =>
    match check i with
    | (_, some e) => ⟨.checkErr e, i * interval, i + 1⟩
    | (true, none) => ⟨.ok, i * interval, i + 1⟩
    | (false, none) =>
      if i * interval > timeout then ⟨.timeout resource, i * interval, i + 1⟩
      else waitLoop check resource interval timeout fuel (i + 1)

/-- pypi.Wait of internal/pypi/pypi.go over an abstract check sequence; its
timeout error names the package as name==version, or name alone when the
version is empty. -/
def pypiWait (name version : String) (opts : WaitOptions)
    (check : Nat → Bool × Option String) : WaitRun :=
  let eff := effectiveWaitOptions opts
  let ref := if version ≠ "" then name ++ "==" ++ version else name
  waitLoop check ref eff.interval eff.timeout (eff.timeout / eff.interval + 2) 0

/-- dockerhub.Wait over an abstract check sequence; its timeout error names
the image reference. -/
def dockerhubWait (image : String) (opts : WaitOptions)
    (check : Nat → Bool × Option String) : WaitRun :=
  let eff := effectiveWaitOptions opts
  waitLoop check image eff.interval eff.timeout (eff.timeout / eff.interval + 2) 0

theorem effective_interval_pos (opts : WaitOptions) :
    0 < (effectiveWaitOptions opts).interval := by
  unfold effectiveWaitOptions
  dsimp only
  by_cases h : opts.interval = 0
  · rw [if_pos h]
    decide
  · rw [if_neg h]
    exact Nat.pos_of_ne_zero h

theorem waitLoop_err (check : Nat → Bool × Option String) (res : String) (iv t : Nat)
    (m : Nat) (b : Bool) (e : String) (hm : check m = (b, some e)) :
    ∀ fuel i, i ≤ m → (∀ j, i ≤ j → j < m → check j = (false, none)) →
      (∀ j, i ≤ j → j < m → j * iv ≤ t) → m - i < fuel →
      waitLoop check res iv t fuel i = ⟨.checkErr e, m * iv, m + 1⟩ := by
  intro fuel
  induction fuel with
  | zero => intro i _ _ _ hf; omega
  | succ fuel ih =>
    intro i him hnot htime _
    rcases Nat.lt_or_ge i m with hlt | hge
    · have hci : check i = (false, none) := hnot i (Nat.le_refl i) hlt
      have hti : i * iv ≤ t := htime i (Nat.le_refl i) hlt
      show waitLoop check res iv t (fuel + 1) i = _
      unfold waitLoop
      rw [hci]
      rw [if_neg (by omega)]
      exact ih (i + 1) (by omega) (fun j hj1 hj2 => hnot j (by omega) hj2)
        (fun j hj1 hj2 => htime j (by omega) hj2) (by omega)
    · have : i = m := by omega
      subst this
      show waitLoop check res iv t (fuel + 1) i = _
      unfold waitLoop
      rw [hm]
      cases b <;> rfl

theorem waitLoop_timeout (check : Nat → Bool × Option String) (res : String) (iv t : Nat)
    (hiv : 0 < iv) (hall : ∀ i, check i = (false, none)) :
    ∀ fuel i, t / iv + 2 ≤ fuel + i → 1 ≤ fuel →
      ∃ k, waitLoop check res iv t fuel i = ⟨.timeout res, k * iv, k + 1⟩ ∧
        k * iv > t ∧ i ≤ k ∧ (∀ j, i ≤ j → j < k → j * iv ≤ t) := by
  intro fuel
  induction fuel with
  | zero => intro i _ hf; omega
  | succ fuel ih =>
    intro i hbound _
    show ∃ k, waitLoop check res iv t (fuel + 1) i = _ ∧ _ ∧ _ ∧ _
    unfold waitLoop
    rw [hall i]
    by_cases ht : i * iv > t
    · rw [if_pos ht]
      exact ⟨i, rfl, ht, Nat.le_refl i, fun j h1 h2 => by omega⟩
    · rw [if_neg ht]
      have hidiv : i ≤ t / iv := Nat.le_div_iff_mul_le hiv |>.mpr (by omega)
      have hfuel1 : 1 ≤ fuel := by omega
      rcases ih (i + 1) (by omega) hfuel1 with ⟨k, hk, hkt, hik, hmin⟩
      refine ⟨k, hk, hkt, by omega, ?_⟩
      intro j h1 h2
      rcases Nat.eq_or_lt_of_le h1 with rfl | h3
      · omega
      · exact hmin j (by omega) h2

/-- C5: the readiness poller of pypi.Wait and dockerhub.Wait calls the check
immediately and returns success with no sleep when the first check is ready; a
hard error from the check at any reached iteration is propagated at once with
no further check; and when the check never reports ready it returns the
timeout error naming the awaited resource, with elapsed sleep strictly past
the configured timeout and never before it. -/
theorem wait_poller_spec (name version image : String) (opts : WaitOptions)
    (check : Nat → Bool × Option String) :
    (check 0 = (true, none) →
      pypiWait name version opts check = ⟨.ok, 0, 1⟩ ∧
      dockerhubWait image opts check = ⟨.ok, 0, 1⟩) ∧
    (∀ i b e, (∀ j, j < i → check j = (false, none)) →
      (∀ j, j < i → j * (effectiveWaitOptions opts).interval ≤
        (effectiveWaitOptions opts).timeout) →
      check i = (b, some e) →
      pypiWait name version opts check =
        ⟨.checkErr e, i * (effectiveWaitOptions opts).interval, i + 1⟩ ∧
      dockerhubWait image opts check =
        ⟨.checkErr e, i * (effectiveWaitOptions opts).interval, i + 1⟩) ∧
    ((∀ i, check i = (false, none)) →
      ∃ k, pypiWait name version opts check =
          ⟨.timeout (if version ≠ "" then name ++ "==" ++ version else name),
            k * (effectiveWaitOptions opts).interval, k + 1⟩ ∧
        dockerhubWait image opts check =
          ⟨.timeout image, k * (effectiveWaitOptions opts).interval, k + 1⟩ ∧
        k * (effectiveWaitOptions opts).interval > (effectiveWaitOptions opts).timeout) := by
  set iv := (effectiveWaitOptions opts).interval with hiv
  set t := (effectiveWaitOptions opts).timeout with ht
  have hivpos : 0 < iv := effective_interval_pos opts
  refine ⟨?_, ?_, ?_⟩
  · intro h0
    constructor
    · show waitLoop check _ iv t (t / iv + 2) 0 = _
      show waitLoop check _ iv t (t / iv + 1 + 1) 0 = _
      unfold waitLoop
      rw [h0]
      simp
    · show waitLoop check _ iv t (t / iv + 2) 0 = _
      show waitLoop check _ iv t (t / iv + 1 + 1) 0 = _
      unfold waitLoop
      rw [h0]
      simp
  · intro i b e hnot htime hi
    have hfuel : i - 0 < t / iv + 2 := by
      rcases Nat.eq_zero_or_pos i with rfl | hpos
      · exact Nat.succ_le_succ (Nat.zero_le _)
      · have : (i - 1) * iv ≤ t := htime (i - 1) (by omega)
        have : i - 1 ≤ t / iv := Nat.le_div_iff_mul_le hivpos |>.mpr this
        omega
    constructor
    · exact waitLoop_err check _ iv t i b e hi (t / iv + 2) 0 (Nat.zero_le i)
        (fun j _ hj2 => hnot j hj2) (fun j _ hj2 => htime j hj2) hfuel
    · exact waitLoop_err check _ iv t i b e hi (t / iv + 2) 0 (Nat.zero_le i)
        (fun j _ hj2 => hnot j hj2) (fun j _ hj2 => htime j hj2) hfuel
  · intro hall
    rcases waitLoop_timeout check
        (if version ≠ "" then name ++ "==" ++ version else name) iv t hivpos hall
        (t / iv + 2) 0 (Nat.le_add_right _ 0) (Nat.succ_le_succ (Nat.zero_le _)) with ⟨k, hk, hkt, -, hmin⟩
    rcases waitLoop_timeout check image iv t hivpos hall
        (t / iv + 2) 0 (Nat.le_add_right _ 0) (Nat.succ_le_succ (Nat.zero_le _)) with ⟨k2, hk2, hkt2, -, hmin2⟩
    have hkk : k = k2 := by
      rcases Nat.lt_trichotomy k k2 with hlt | heq | hgt
      · have := hmin2 k (Nat.zero_le k) hlt
        omega
      · exact heq
      · have := hmin k2 (Nat.zero_le k2) hgt
        omega
    subst hkk
    exact ⟨k, hk, hk2, hkt⟩

end Wait

end Releasebot
namespace Releasebot

namespace Wait

/-- Flag defaults of the standalone pypi wait subcommand: timeout 5m, interval 5s. -/
def pypiWaitCmdDefaults : WaitOptions := ⟨5 * minute, 5 * second⟩

/-- Flag defaults of the standalone dockerhub watch subcommand: timeout 5m, interval 5s. -/
def dockerhubWatchCmdDefaults : WaitOptions := ⟨5 * minute, 5 * second⟩

/-- The WaitOptions the release pipeline passes to pypi.Wait in
runPostReleaseChecks: the value of the pypi-timeout flag and a hard-coded
5-second interval. -/
def releasePypiWaitOpts (flagTimeout : Nat) : WaitOptions := ⟨flagTimeout, 5 * second⟩

/-- The WaitOptions the release pipeline passes to dockerhub.Wait: the value
of the docker-timeout flag and a hard-coded 5-second interval. -/
def releaseDockerWaitOpts (flagTimeout : Nat) : WaitOptions := ⟨flagTimeout, 5 * second⟩

/-- C8 counterexample: with no flag overridden, the package and image waits of
the release pipeline run with a 10-minute effective timeout, not the claimed 5
minutes. The 5-minute default applies only to zero-valued options, and the
release pipeline never passes a zero timeout: its pypi-timeout and
docker-timeout flags default to 10 minutes. -/
theorem wait_defaults_claim_counterexample :
    (effectiveWaitOptions (releasePypiWaitOpts pypiTimeoutFlagDefault)).timeout
        = 10 * minute ∧
    (effectiveWaitOptions (releaseDockerWaitOpts dockerTimeoutFlagDefault)).timeout
        = 10 * minute ∧
    ¬ (effectiveWaitOptions (releasePypiWaitOpts pypiTimeoutFlagDefault)).timeout
        = 5 * minute := by
  decide

/-- C8 (amended): the wait primitive itself and the standalone subcommands
default to a 5-minute timeout with a 5-second interval; the CI-completion wait
defaults to 30 minutes with a 15-second poll both in the release pipeline and
in the actions wait subcommand; but the package and image waits of the release
pipeline default to the 10-minute pypi-timeout and docker-timeout flags with a
5-second interval. Timeout and interval are defaulted independently of each
other, and a non-zero caller value always wins. -/
theorem wait_defaults :
    pypiDefaultWaitOptions = ⟨5 * minute, 5 * second⟩ ∧
    dockerhubDefaultWaitOptions = ⟨5 * minute, 5 * second⟩ ∧
    effectiveWaitOptions ⟨0, 0⟩ = ⟨5 * minute, 5 * second⟩ ∧
    pypiWaitCmdDefaults = ⟨5 * minute, 5 * second⟩ ∧
    dockerhubWatchCmdDefaults = ⟨5 * minute, 5 * second⟩ ∧
    workflowTimeoutDefault = 30 * minute ∧
    ciPollInterval = 15 * second ∧
    actionsWaitTimeoutDefault = 30 * minute ∧
    actionsPollIntervalDefault = 15 * second ∧
    pypiTimeoutFlagDefault = 10 * minute ∧
    dockerTimeoutFlagDefault = 10 * minute ∧
    effectiveWaitOptions (releasePypiWaitOpts pypiTimeoutFlagDefault)
        = ⟨10 * minute, 5 * second⟩ ∧
    effectiveWaitOptions (releaseDockerWaitOpts dockerTimeoutFlagDefault)
        = ⟨10 * minute, 5 * second⟩ ∧
    (∀ opts : WaitOptions,
      (opts.timeout = 0 → (effectiveWaitOptions opts).timeout = 5 * minute) ∧
      (opts.timeout ≠ 0 → (effectiveWaitOptions opts).timeout = opts.timeout) ∧
      (opts.interval = 0 → (effectiveWaitOptions opts).interval = 5 * second) ∧
      (opts.interval ≠ 0 → (effectiveWaitOptions opts).interval = opts.interval)) := by
  refine ⟨rfl, rfl, by decide, rfl, rfl, rfl, rfl, rfl, rfl, rfl, rfl,
    by decide, by decide, ?_⟩
  intro opts
  refine ⟨?_, ?_, ?_, ?_⟩
  · intro h
    unfold effectiveWaitOptions
    dsimp only
    rw [if_pos h]
  · intro h
    unfold effectiveWaitOptions
    dsimp only
    rw [if_neg h]
  · intro h
    unfold effectiveWaitOptions
    dsimp only
    rw [if_pos h]
  · intro h
    unfold effectiveWaitOptions
    dsimp only
    rw [if_neg h]

end Wait

namespace Retry

/-- The error shapes internal/changelog/llm.go distinguishes in
isRecoverableError: an openai.Error or anthropic.Error carrying an HTTP
status code, a url.Error wrapping another error, a net.Error with its
Timeout and Temporary reports, or anything else. -/
inductive GoError where
  | openaiStatus (code : Nat)
  | anthropicStatus (code : Nat)
  | urlWrapped (inner : GoError)
  | netError (isTimeout isTemporary : Bool)
  | other (msg : String)
deriving DecidableEq, Repr

/-- statusCodeRetryable of llm.go: HTTP 429 or any 5xx status. -/
def statusCodeRetryable (code : Nat) : Bool :=
  code == 429 || (decide (500 ≤ code) && decide (code < 600))

/-- isRecoverableError of llm.go. A net.Error is recoverable when it reports
Timeout or Temporary. -/
def isRecoverableError : GoError → Bool
  | .openaiStatus code => statusCodeRetryable code
  | .anthropicStatus code => statusCodeRetryable code
  | .urlWrapped inner => isRecoverableError inner
  | .netError isTimeout isTemporary => isTimeout || isTemporary
  | .other _ => false

/-- The transient class exactly as the specification words it: HTTP 429, an
HTTP 5xx, or a network timeout. Merely temporary network errors are not in
this list. -/
def specTransientError : GoError → Bool
  | .openaiStatus code => statusCodeRetryable code
  | .anthropicStatus code => statusCodeRetryable code
  | .urlWrapped inner => specTransientError inner
  | .netError isTimeout _ => isTimeout
  | .other _ => false

/-- maxLLMRetries of llm.go. -/
def maxLLMRetries : Nat := 3

/-- initialBackoff of llm.go: one second, in nanoseconds. -/
def initialBackoff : Nat := Wait.second

/-- maxBackoff of llm.go: thirty seconds, in nanoseconds. -/
def maxBackoff : Nat := 30 * Wait.second

/-- A Go (string, error) return: the value on success, the error otherwise. -/
inductive RetryResult where
  | ok (out : String)
  | err (e : GoError)
deriving DecidableEq, Repr

/-- The observable result of a retryWithBackoff call: the returned value or
error, the sleep durations performed in order, and how many times fn ran. -/
structure RetryRun where
  result : RetryResult
  sleeps : List Nat
  calls : Nat
deriving DecidableEq, Repr

/-- The loop body of retryWithBackoff: run fn; return its output on success;
return the error when it is not recoverable or this was the last attempt;
otherwise sleep the current backoff, double it, cap it at maxBackoff and
retry. The first argument counts the remaining loop iterations
(maxAttempts - attempt), which makes the recursion structural; the sleeps
accumulator is kept reversed. Context cancellation is not modelled. When the
iteration budget is exhausted without an early return, Go returns the last
error, or a nil error with an empty string when the loop never ran. -/
def retryAux (fn : Nat → Except GoError String) (maxAttempts : Nat) :
    Nat → Nat → Nat → List Nat → Option GoError → RetryRun
  | 0, attempt, _, sleeps, lastErr =>
    ⟨(match lastErr with
      | none => .ok ""
      | some e => .err e), sleeps.reverse, attempt⟩
  | remaining + 1, attempt, backoff, sleeps, _ =>
    match fn attempt with
    | .ok out => ⟨.ok out, sleeps.reverse, attempt + 1⟩
    | .error e =>
      if isRecoverableError e = false ∨ attempt = maxAttempts - 1 then
        ⟨.err e, sleeps.reverse, attempt + 1⟩
      else
        retryAux fn maxAttempts remaining (attempt + 1)
          (min (backoff * 2) maxBackoff) (backoff :: sleeps) (some e)

/-- retryWithBackoff of llm.go as its callers use it: maxAttempts is always
maxLLMRetries and the backoff starts at initialBackoff. The attempt index is
passed to fn so that a run can be described by an abstract result sequence. -/
def retryWithBackoff (fn : Nat → Except GoError String) : RetryRun :=
  retryAux fn maxLLMRetries maxLLMRetries 0 initialBackoff [] none

/-- The delay slept before retry number j + 1: initialBackoff doubled j
times, capped at maxBackoff. -/
def backoffSchedule (j : Nat) : Nat := min (2 ^ j * initialBackoff) maxBackoff

theorem retryAux_calls_le (fn : Nat → Except GoError String) (M : Nat) :
    ∀ r attempt b s le, (retryAux fn M r attempt b s le).calls ≤ attempt + r := by
  intro r
  induction r with
  | zero =>
    intro attempt b s le
    exact Nat.le_add_right attempt 0
  | succ r ih =>
    intro attempt b s le
    show (retryAux fn M (r + 1) attempt b s le).calls ≤ attempt + (r + 1)
    unfold retryAux
    cases hfa : fn attempt with
    | ok out =>
      dsimp only
      omega
    | error e =>
      dsimp only
      by_cases hc : isRecoverableError e = false ∨ attempt = M - 1
      · rw [if_pos hc]
        dsimp only
        omega
      · rw [if_neg hc]
        calc (retryAux fn M r (attempt + 1) _ _ _).calls ≤ (attempt + 1) + r :=
              ih (attempt + 1) _ _ _
          _ ≤ attempt + (r + 1) := by omega

/-- C9 counterexample: a network error reporting Temporary but not Timeout is
outside the transient list of the claim, yet retryWithBackoff retries it with
backoff sleeps instead of returning it immediately: a constant such failure
is attempted three times with sleeps of one and two seconds. -/
theorem retry_claim_counterexample :
    specTransientError (.netError false true) = false ∧
    isRecoverableError (.netError false true) = true ∧
    (retryWithBackoff (fun _ => .error (.netError false true))).sleeps =
      [initialBackoff, 2 * initialBackoff] ∧
    (retryWithBackoff (fun _ => .error (.netError false true))).calls = 3 ∧
    (retryWithBackoff (fun _ => .error (.netError false true))).result =
      .err (.netError false true) := by
  decide

/-- C9 (amended): every error in the transient list of the specification
(HTTP 429, HTTP 5xx, network timeout) is classified recoverable, though the
code also treats merely temporary network errors as recoverable; a success at
any attempt i reached through recoverable failures returns that output after
exactly i + 1 calls with the doubling capped backoff schedule of sleeps; a
non-recoverable error is returned at once with no further call or sleep; three
recoverable failures exhaust the attempt budget and return the last error
after sleeps of one and two seconds; and no run ever calls the operation more
than maxLLMRetries times. -/
theorem retry_backoff_spec (fn : Nat → Except GoError String) :
    (∀ e, specTransientError e = true → isRecoverableError e = true) ∧
    (∀ i out, i < maxLLMRetries →
      (∀ j, j < i → ∃ ej, fn j = .error ej ∧ isRecoverableError ej = true) →
      fn i = .ok out →
      retryWithBackoff fn = ⟨.ok out, (List.range i).map backoffSchedule, i + 1⟩) ∧
    (∀ i e, i < maxLLMRetries →
      (∀ j, j < i → ∃ ej, fn j = .error ej ∧ isRecoverableError ej = true) →
      fn i = .error e → isRecoverableError e = false →
      retryWithBackoff fn = ⟨.err e, (List.range i).map backoffSchedule, i + 1⟩) ∧
    (∀ e0 e1 e2, fn 0 = .error e0 → fn 1 = .error e1 → fn 2 = .error e2 →
      isRecoverableError e0 = true → isRecoverableError e1 = true →
      retryWithBackoff fn = ⟨.err e2, [initialBackoff, 2 * initialBackoff], 3⟩) ∧
    (retryWithBackoff fn).calls ≤ maxLLMRetries := by
  have hb1 : min (initialBackoff * 2) maxBackoff = 2 * initialBackoff := by decide
  have hr0 : (List.range 0).map backoffSchedule = [] := by decide
  have hr1 : (List.range 1).map backoffSchedule = [initialBackoff] := by decide
  have hr2 : (List.range 2).map backoffSchedule = [initialBackoff, 2 * initialBackoff] := by
    decide
  refine ⟨?_, ?_, ?_, ?_, ?_⟩
  · intro e
    induction e with
    | openaiStatus code => intro h; exact h
    | anthropicStatus code => intro h; exact h
    | urlWrapped inner ih => intro h; exact ih h
    | netError isTimeout isTemporary =>
      intro h
      simp only [specTransientError] at h
      simp only [isRecoverableError, h, Bool.true_or]
    | other msg => intro h; exact h
  · intro i out hi hpre hok
    have hi3 : i < 3 := hi
    clear hi
    interval_cases i
    · rw [hr0]
      show retryAux fn 3 3 0 initialBackoff [] none = _
      unfold retryAux
      rw [hok]
      rfl
    · rw [hr1]
      rcases hpre 0 (by omega) with ⟨e0, h0, he0⟩
      show retryAux fn 3 3 0 initialBackoff [] none = _
      unfold retryAux
      rw [h0]
      dsimp only
      rw [if_neg (by simp [he0])]
      unfold retryAux
      rw [hok]
      rfl
    · rw [hr2]
      rcases hpre 0 (by omega) with ⟨e0, h0, he0⟩
      rcases hpre 1 (by omega) with ⟨e1, h1, he1⟩
      show retryAux fn 3 3 0 initialBackoff [] none = _
      unfold retryAux
      rw [h0]
      dsimp only
      rw [if_neg (by simp [he0])]
      unfold retryAux
      rw [h1]
      dsimp only
      rw [if_neg (by simp [he1])]
      unfold retryAux
      rw [hok, hb1]
      rfl
  · intro i e hi hpre herr hrec
    have hi3 : i < 3 := hi
    clear hi
    interval_cases i
    · rw [hr0]
      show retryAux fn 3 3 0 initialBackoff [] none = _
      unfold retryAux
      rw [herr]
      dsimp only
      rw [if_pos (Or.inl hrec)]
      rfl
    · rw [hr1]
      rcases hpre 0 (by omega) with ⟨e0, h0, he0⟩
      show retryAux fn 3 3 0 initialBackoff [] none = _
      unfold retryAux
      rw [h0]
      dsimp only
      rw [if_neg (by simp [he0])]
      unfold retryAux
      rw [herr]
      dsimp only
      rw [if_pos (Or.inl hrec)]
      rfl
    · rw [hr2]
      rcases hpre 0 (by omega) with ⟨e0, h0, he0⟩
      rcases hpre 1 (by omega) with ⟨e1, h1, he1⟩
      show retryAux fn 3 3 0 initialBackoff [] none = _
      unfold retryAux
      rw [h0]
      dsimp only
      rw [if_neg (by simp [he0])]
      unfold retryAux
      rw [h1]
      dsimp only
      rw [if_neg (by simp [he1])]
      unfold retryAux
      rw [herr]
      dsimp only
      rw [if_pos (Or.inl hrec), hb1]
      rfl
  · intro e0 e1 e2 h0 h1 h2 he0 he1
    show retryAux fn 3 3 0 initialBackoff [] none = _
    unfold retryAux
    rw [h0]
    dsimp only
    rw [if_neg (by simp [he0])]
    unfold retryAux
    rw [h1]
    dsimp only
    rw [if_neg (by simp [he1])]
    unfold retryAux
    rw [h2]
    dsimp only
    rw [if_pos (Or.inr rfl), hb1]
    rfl
  · exact retryAux_calls_le fn maxLLMRetries maxLLMRetries 0 initialBackoff [] none

end Retry

end Releasebot
namespace Releasebot

namespace TUI

/-- numReleaseSteps: the fixed seven-step release sequence. -/
def numReleaseSteps : Nat := 7

/-- The step status strings of releaseTUI, as an enumeration. -/
inductive StepStatus where
  | pending
  | running
  | done
  | error
  | skipped
deriving DecidableEq, Repr

/-- The releaseTUI model fields the release-path Update logic touches: the
per-step status array, the index of the currently running step, the final
error and the done flag. Dry-run and spinner fields are not modelled; the
dry-run path never sends the messages below. The Go field current is an int
that is only -1 on the dry-run path, so a Nat suffices here. -/
structure TUIModel where
  status : List StepStatus
  current : Nat
  finalErr : Option String
  done : Bool
deriving DecidableEq, Repr

/-- The two release-path messages of releaseTUI.Update. A Go nil error is
none. Error wrapping applied by doReleaseSteps before returning is not
modelled: the payload carried here is the step error itself. -/
inductive TUIMsg where
  | stepResult (step : Nat) (err : Option String) (skipped : Bool)
  | releaseDone (err : Option String)
deriving DecidableEq, Repr

/-- releaseTUI.Update restricted to stepResultMsg and releaseDoneMsg (key,
spinner and dry-run messages do not touch the step statuses). The Go array
write m.status[msg.Step] = ... is List.set; the guarded read
next < numReleaseSteps && m.status[next] == "pending" never consults the getD
default on the length-7 lists that occur. On releaseDoneMsg every running
step becomes error when the run returned an error and done otherwise. -/
def updateTUI (m : TUIModel) : TUIMsg → TUIModel
  | .stepResult step err skipped =>
    let m1 :=
      if skipped then { m with status := m.status.set step .skipped }
      else
        match err with
        | some e => { m with status := m.status.set step .error, finalErr := some e }
        | none => { m with status := m.status.set step .done }
    let next := step + 1
    if next < numReleaseSteps ∧ m1.status.getD next .pending = .pending then
      { m1 with status := m1.status.set next .running, current := next }
    else m1
  | .releaseDone err =>
    { m with
      done := true
      finalErr := err
      status := m.status.map fun s =>
        if s = .running then (if err.isSome then .error else .done) else s }

/-- releaseTUI.Init on the non-dry-run path: all seven statuses pending, then
status[0] = running and current = 0, before any message is processed. -/
def initTUI : TUIModel :=
  { status := (List.replicate numReleaseSteps StepStatus.pending).set 0 .running
    current := 0
    finalErr := none
    done := false }

/-- What doReleaseSteps does at one step: report success, report a skip, or
report an error and return it, halting the sequence. -/
inductive StepOutcome where
  | ok
  | skipped
  | failed (e : String)
deriving DecidableEq, Repr

/-- The stepResultMsg stream doReleaseSteps sends through its reporter,
numbering steps from i: one message per step, stopping right after the first
failure. -/
def stepMsgsAux : Nat → List StepOutcome → List TUIMsg
  | _, [] => []
  | i, .ok :: rest => .stepResult i none false :: stepMsgsAux (i + 1) rest
  | i, .skipped :: rest => .stepResult i none true :: stepMsgsAux (i + 1) rest
  | i, .failed e :: _ => [.stepResult i (some e) false]

/-- The error doReleaseSteps returns: the first failure, if any. -/
def firstErr : List StepOutcome → Option String
  | [] => none
  | .failed e :: _ => some e
  | .ok :: rest => firstErr rest
  | .skipped :: rest => firstErr rest

/-- The whole message sequence the Init goroutine delivers for a run with the
given per-step outcomes: the reporter messages, then releaseDoneMsg carrying
the return value of doReleaseSteps. -/
def releaseRunMsgs (os : List StepOutcome) : List TUIMsg :=
  stepMsgsAux 0 os ++ [.releaseDone (firstErr os)]

/-- The model once Update has processed a whole release run. -/
def finalTUI (os : List StepOutcome) : TUIModel :=
  (releaseRunMsgs os).foldl updateTUI initTUI

/-- C1 counterexample: when step 0 fails, step 1 does not keep status pending:
the stepResultMsg handler promotes step 1 to running right after recording the
error at step 0, and the final releaseDoneMsg flips every running step to
error, so step 1 ends error. -/
theorem tui_halt_claim_counterexample :
    (finalTUI (.failed "boom" :: List.replicate 6 .ok)).status =
      [.error, .error, .pending, .pending, .pending, .pending, .pending] ∧
    ¬ (∀ j, j < numReleaseSteps → 0 < j →
        (finalTUI (.failed "boom" :: List.replicate 6 .ok)).status.getD j .pending
          = .pending) := by
  decide

end TUI

end Releasebot
namespace Releasebot

namespace TUI

theorem getD_set_self {α : Type} (l : List α) (n : Nat) (a d : α)
    (h : n < l.length) : (l.set n a).getD n d = a := by
  induction l generalizing n with
  | nil => simp at h
  | cons x xs ih =>
    cases n with
    | zero => rfl
    | succ n =>
      show (xs.set n a).getD n d = a
      exact ih n (by simpa using h)

theorem getD_set_ne {α : Type} (l : List α) (mi n : Nat) (a d : α)
    (h : mi ≠ n) : (l.set mi a).getD n d = l.getD n d := by
  induction l generalizing mi n with
  | nil => rfl
  | cons x xs ih =>
    cases mi with
    | zero =>
      cases n with
      | zero => exact absurd rfl h
      | succ n => rfl
    | succ mi =>
      cases n with
      | zero => rfl
      | succ n =>
        show (xs.set mi a).getD n d = xs.getD n d
        exact ih mi n (by omega)

theorem getD_map_lt {α β : Type} (f : α → β) (l : List α) (n : Nat) (d : α)
    (d2 : β) (h : n < l.length) : (l.map f).getD n d2 = f (l.getD n d) := by
  induction l generalizing n with
  | nil => simp at h
  | cons x xs ih =>
    cases n with
    | zero => rfl
    | succ n =>
      show (xs.map f).getD n d2 = f (xs.getD n d)
      exact ih n (by simpa using h)

theorem firstErr_eq (os : List StepOutcome) :
    ∀ (p : Nat) (e : String), os.get? p = some (.failed e) →
      (∀ q, q < p → os.get? q = some .ok ∨ os.get? q = some .skipped) →
      firstErr os = some e := by
  induction os with
  | nil =>
    intro p e h _
    simp at h
  | cons o rest ih =>
    intro p e h hpre
    cases p with
    | zero =>
      have ho : o = .failed e := by simpa using h
      subst ho
      rfl
    | succ p =>
      have h0 := hpre 0 (Nat.succ_pos p)
      have hr : rest.get? p = some (.failed e) := by simpa using h
      have hpre2 : ∀ q, q < p → rest.get? q = some .ok ∨ rest.get? q = some .skipped := by
        intro q hq
        simpa using hpre (q + 1) (by omega)
      simp only [List.get?_cons_zero, Option.some.injEq] at h0
      rcases h0 with rfl | rfl
      · show firstErr rest = some e
        exact ih p e hr hpre2
      · show firstErr rest = some e
        exact ih p e hr hpre2

end TUI

end Releasebot
namespace Releasebot

namespace TUI

/-- Invariant of the stepResultMsg phase: starting from a model whose steps
before i are settled, whose step i shows running and whose later steps are
pending, the reporter messages settle the steps processed before the failure
to done or skipped, mark the failing step error, promote the step right after
the failure to running, leave later steps pending, and record the error. -/
theorem stepMsgs_fold (os : List StepOutcome) :
    ∀ (i p : Nat) (e : String) (m : TUIModel),
      i + os.length = numReleaseSteps →
      m.status.length = numReleaseSteps →
      m.done = false →
      os.get? p = some (.failed e) →
      (∀ q, q < p → os.get? q = some .ok ∨ os.get? q = some .skipped) →
      m.status.getD i .pending = .running →
      (∀ j, i < j → j < numReleaseSteps → m.status.getD j .pending = .pending) →
      ((stepMsgsAux i os).foldl updateTUI m).status.length = numReleaseSteps ∧
      ((stepMsgsAux i os).foldl updateTUI m).finalErr = some e ∧
      ((stepMsgsAux i os).foldl updateTUI m).done = false ∧
      (∀ j, j < i → ((stepMsgsAux i os).foldl updateTUI m).status.getD j .pending
          = m.status.getD j .pending) ∧
      (∀ q, q < p → ((stepMsgsAux i os).foldl updateTUI m).status.getD (i + q) .pending
          = (if os.get? q = some .skipped then .skipped else .done)) ∧
      ((stepMsgsAux i os).foldl updateTUI m).status.getD (i + p) .pending = .error ∧
      (i + p + 1 < numReleaseSteps →
        ((stepMsgsAux i os).foldl updateTUI m).status.getD (i + p + 1) .pending = .running) ∧
      (∀ j, i + p + 1 < j → j < numReleaseSteps →
        ((stepMsgsAux i os).foldl updateTUI m).status.getD j .pending = .pending) := by
  induction os with
  | nil =>
    intro i p e m hlen hml hdone hk hpre hrun hpend
    simp at hk
  | cons o rest ih =>
    intro i p e m hlen hml hdone hk hpre hrun hpend
    rw [List.length_cons] at hlen
    have hi7 : i < numReleaseSteps := by omega
    cases p with
    | zero =>
      have ho : o = .failed e := by simpa using hk
      subst ho
      simp only [stepMsgsAux, List.foldl]
      by_cases hnext : i + 1 < numReleaseSteps
      · have hpnd : (m.status.set i StepStatus.error).getD (i + 1) .pending = .pending := by
          rw [getD_set_ne _ _ _ _ _ (show i ≠ i + 1 by omega)]
          exact hpend (i + 1) (by omega) hnext
        have hm1 : updateTUI m (.stepResult i (some e) false) =
            { status := (m.status.set i .error).set (i + 1) .running
              current := i + 1
              finalErr := some e
              done := m.done } := by
          unfold updateTUI
          dsimp only
          rw [if_neg Bool.false_ne_true]
          dsimp only
          rw [if_pos ⟨hnext, hpnd⟩]
        rw [hm1]
        refine ⟨?_, rfl, hdone, ?_, ?_, ?_, ?_, ?_⟩
        · simp [List.length_set, hml]
        · intro j hj
          dsimp only
          rw [getD_set_ne _ _ _ _ _ (show i + 1 ≠ j by omega),
            getD_set_ne _ _ _ _ _ (show i ≠ j by omega)]
        · intro q hq
          exact absurd hq (Nat.not_lt_zero q)
        · show ((m.status.set i .error).set (i + 1) .running).getD i .pending = .error
          rw [getD_set_ne _ _ _ _ _ (show i + 1 ≠ i by omega)]
          exact getD_set_self _ _ _ _ (by rw [hml]; exact hi7)
        · intro _
          show ((m.status.set i .error).set (i + 1) .running).getD (i + 1) .pending = .running
          exact getD_set_self _ _ _ _ (by rw [List.length_set, hml]; exact hnext)
        · intro j h1 h2
          dsimp only
          rw [getD_set_ne _ _ _ _ _ (show i + 1 ≠ j by omega),
            getD_set_ne _ _ _ _ _ (show i ≠ j by omega)]
          exact hpend j (by omega) h2
      · have hm1 : updateTUI m (.stepResult i (some e) false) =
            { status := m.status.set i .error
              current := m.current
              finalErr := some e
              done := m.done } := by
          unfold updateTUI
          dsimp only
          rw [if_neg Bool.false_ne_true]
          dsimp only
          rw [if_neg (fun hc => hnext hc.1)]
        rw [hm1]
        refine ⟨?_, rfl, hdone, ?_, ?_, ?_, ?_, ?_⟩
        · simp [List.length_set, hml]
        · intro j hj
          dsimp only
          rw [getD_set_ne _ _ _ _ _ (show i ≠ j by omega)]
        · intro q hq
          exact absurd hq (Nat.not_lt_zero q)
        · show (m.status.set i .error).getD i .pending = .error
          exact getD_set_self _ _ _ _ (by rw [hml]; exact hi7)
        · intro h
          exact absurd h hnext
        · intro j h1 h2
          exact absurd (show i + 1 < numReleaseSteps by omega) hnext
    | succ q =>
      have h0 := hpre 0 (Nat.succ_pos q)
      have hrest : rest.get? q = some (.failed e) := by simpa using hk
      have hpre2 : ∀ r, r < q → rest.get? r = some .ok ∨ rest.get? r = some .skipped := by
        intro r hr
        simpa using hpre (r + 1) (by omega)
      have hql : q < rest.length := by
        by_contra hcon
        rw [List.get?_eq_none.mpr (by omega)] at hrest
        exact Option.noConfusion hrest
      have hnext : i + 1 < numReleaseSteps := by omega
      simp only [List.get?_cons_zero, Option.some.injEq] at h0
      have hpnd : ∀ st : StepStatus,
          (m.status.set i st).getD (i + 1) .pending = .pending := by
        intro st
        rw [getD_set_ne _ _ _ _ _ (show i ≠ i + 1 by omega)]
        exact hpend (i + 1) (by omega) hnext
      rcases h0 with rfl | rfl
      · have hm1 : updateTUI m (.stepResult i none false) =
            { status := (m.status.set i .done).set (i + 1) .running
              current := i + 1
              finalErr := m.finalErr
              done := m.done } := by
          unfold updateTUI
          dsimp only
          rw [if_neg Bool.false_ne_true]
          dsimp only
          rw [if_pos ⟨hnext, hpnd .done⟩]
        simp only [stepMsgsAux, List.foldl_cons]
        rw [hm1]
        rcases ih (i + 1) q e
            { status := (m.status.set i .done).set (i + 1) .running
              current := i + 1
              finalErr := m.finalErr
              done := m.done }
            (by omega)
            (by dsimp only; rw [List.length_set, List.length_set]; exact hml)
            hdone hrest hpre2
            (by dsimp only
                exact getD_set_self _ _ _ _ (by rw [List.length_set, hml]; exact hnext))
            (by intro j h1 h2
                dsimp only
                rw [getD_set_ne _ _ _ _ _ (show i + 1 ≠ j by omega),
                  getD_set_ne _ _ _ _ _ (show i ≠ j by omega)]
                exact hpend j (by omega) h2)
          with ⟨L, FE, D, A, B, C, R, P⟩
        refine ⟨L, FE, D, ?_, ?_, ?_, ?_, ?_⟩
        · intro j hj
          rw [A j (by omega)]
          dsimp only
          rw [getD_set_ne _ _ _ _ _ (show i + 1 ≠ j by omega),
            getD_set_ne _ _ _ _ _ (show i ≠ j by omega)]
        · intro r hr
          cases r with
          | zero =>
            rw [if_neg (show ¬ ((StepOutcome.ok :: rest).get? 0 = some StepOutcome.skipped) by simp)]
            show ((stepMsgsAux (i + 1) rest).foldl updateTUI _).status.getD i .pending = .done
            rw [A i (by omega)]
            dsimp only
            rw [getD_set_ne _ _ _ _ _ (show i + 1 ≠ i by omega)]
            exact getD_set_self _ _ _ _ (by rw [hml]; exact hi7)
          | succ r =>
            have hidx : i + (r + 1) = (i + 1) + r := by omega
            rw [hidx]
            simp only [List.get?_cons_succ]
            exact B r (by omega)
        · have hidx : i + (q + 1) = (i + 1) + q := by omega
          rw [hidx]
          exact C
        · intro h
          have hidx : i + (q + 1) + 1 = (i + 1) + q + 1 := by omega
          rw [hidx]
          exact R (by omega)
        · intro j h1 h2
          exact P j (by omega) h2
      · have hm1 : updateTUI m (.stepResult i none true) =
            { status := (m.status.set i .skipped).set (i + 1) .running
              current := i + 1
              finalErr := m.finalErr
              done := m.done } := by
          unfold updateTUI
          dsimp only
          rw [if_pos rfl]
          dsimp only
          rw [if_pos ⟨hnext, hpnd .skipped⟩]
        simp only [stepMsgsAux, List.foldl_cons]
        rw [hm1]
        rcases ih (i + 1) q e
            { status := (m.status.set i .skipped).set (i + 1) .running
              current := i + 1
              finalErr := m.finalErr
              done := m.done }
            (by omega)
            (by dsimp only; rw [List.length_set, List.length_set]; exact hml)
            hdone hrest hpre2
            (by dsimp only
                exact getD_set_self _ _ _ _ (by rw [List.length_set, hml]; exact hnext))
            (by intro j h1 h2
                dsimp only
                rw [getD_set_ne _ _ _ _ _ (show i + 1 ≠ j by omega),
                  getD_set_ne _ _ _ _ _ (show i ≠ j by omega)]
                exact hpend j (by omega) h2)
          with ⟨L, FE, D, A, B, C, R, P⟩
        refine ⟨L, FE, D, ?_, ?_, ?_, ?_, ?_⟩
        · intro j hj
          rw [A j (by omega)]
          dsimp only
          rw [getD_set_ne _ _ _ _ _ (show i + 1 ≠ j by omega),
            getD_set_ne _ _ _ _ _ (show i ≠ j by omega)]
        · intro r hr
          cases r with
          | zero =>
            rw [if_pos (show (StepOutcome.skipped :: rest).get? 0 = some StepOutcome.skipped from rfl)]
            show ((stepMsgsAux (i + 1) rest).foldl updateTUI _).status.getD i .pending = .skipped
            rw [A i (by omega)]
            dsimp only
            rw [getD_set_ne _ _ _ _ _ (show i + 1 ≠ i by omega)]
            exact getD_set_self _ _ _ _ (by rw [hml]; exact hi7)
          | succ r =>
            have hidx : i + (r + 1) = (i + 1) + r := by omega
            rw [hidx]
            simp only [List.get?_cons_succ]
            exact B r (by omega)
        · have hidx : i + (q + 1) = (i + 1) + q := by omega
          rw [hidx]
          exact C
        · intro h
          have hidx : i + (q + 1) + 1 = (i + 1) + q + 1 := by omega
          rw [hidx]
          exact R (by omega)
        · intro j h1 h2
          exact P j (by omega) h2

end TUI

end Releasebot
namespace Releasebot

namespace TUI

/-- C1 (amended): for a release run whose first failure is step k, the TUI
ends done with the failing error recorded; steps before k end done, or skipped
where they were skipped; step k ends error; the step right after k also ends
error, because Update promotes it to running when the failure of step k is
reported and the final releaseDoneMsg flips every running step to error; and
only the steps strictly after k + 1 keep status pending. -/
theorem tui_halt_spec (os : List StepOutcome) (k : Nat) (e : String)
    (hlen : os.length = numReleaseSteps)
    (hk : os.get? k = some (.failed e))
    (hpre : ∀ j, j < k → os.get? j = some .ok ∨ os.get? j = some .skipped) :
    (finalTUI os).done = true ∧
    (finalTUI os).finalErr = some e ∧
    (finalTUI os).status.getD k .pending = .error ∧
    (∀ j, j < k → (finalTUI os).status.getD j .pending =
      (if os.get? j = some .skipped then .skipped else .done)) ∧
    (k + 1 < numReleaseSteps → (finalTUI os).status.getD (k + 1) .pending = .error) ∧
    (∀ j, k + 1 < j → j < numReleaseSteps →
      (finalTUI os).status.getD j .pending = .pending) := by
  have hfe : firstErr os = some e := firstErr_eq os k e hk hpre
  have hkl : k < os.length := by
    by_contra hcon
    rw [List.get?_eq_none.mpr (by omega)] at hk
    exact Option.noConfusion hk
  have hk7 : k < numReleaseSteps := by omega
  rcases stepMsgs_fold os 0 k e initTUI (by omega)
      (by decide) rfl hk hpre (by decide)
      (by intro j h1 h2
          have h7 : j < 7 := h2
          interval_cases j <;> decide)
    with ⟨L, FE, D, A, B, C, R, P⟩
  have hC : ((stepMsgsAux 0 os).foldl updateTUI initTUI).status.getD k .pending
      = .error := by
    rw [← Nat.zero_add k]
    exact C
  have hsplit : finalTUI os =
      updateTUI ((stepMsgsAux 0 os).foldl updateTUI initTUI) (.releaseDone (some e)) := by
    unfold finalTUI releaseRunMsgs
    rw [List.foldl_append, hfe]
    rfl
  have hupd : updateTUI ((stepMsgsAux 0 os).foldl updateTUI initTUI)
        (.releaseDone (some e)) =
      { status := ((stepMsgsAux 0 os).foldl updateTUI initTUI).status.map fun s =>
          if s = StepStatus.running
          then (if (some e).isSome then StepStatus.error else StepStatus.done) else s
        current := ((stepMsgsAux 0 os).foldl updateTUI initTUI).current
        finalErr := some e
        done := true } := by
    rfl
  rw [hsplit, hupd]
  refine ⟨rfl, rfl, ?_, ?_, ?_, ?_⟩
  · dsimp only
    rw [getD_map_lt _ _ _ StepStatus.pending _ (by rw [L]; exact hk7)]
    rw [hC]
    rfl
  · intro j hj
    have hB := B j hj
    rw [Nat.zero_add] at hB
    dsimp only
    rw [getD_map_lt _ _ _ StepStatus.pending _ (by rw [L]; omega)]
    rw [hB]
    by_cases hsk : os.get? j = some StepOutcome.skipped
    · rw [if_pos hsk]
      rfl
    · rw [if_neg hsk]
      rfl
  · intro h
    have hR := R (by omega)
    rw [Nat.zero_add] at hR
    dsimp only
    rw [getD_map_lt _ _ _ StepStatus.pending _ (by rw [L]; omega)]
    rw [hR]
    rfl
  · intro j h1 h2
    have hP := P j (by omega) h2
    dsimp only
    rw [getD_map_lt _ _ _ StepStatus.pending _ (by rw [L]; omega)]
    rw [hP]
    rfl

/-- Witness for the amended C1 statement: a run that skips step 0, completes
step 1 and fails at step 2 ends with statuses
[skipped, done, error, error, pending, pending, pending]. -/
theorem tui_halt_spec_witness :
    (finalTUI [.skipped, .ok, .failed "x", .ok, .ok, .ok, .ok]).done = true ∧
    (finalTUI [.skipped, .ok, .failed "x", .ok, .ok, .ok, .ok]).finalErr = some "x" ∧
    (finalTUI [.skipped, .ok, .failed "x", .ok, .ok, .ok, .ok]).status.getD 2 .pending
      = .error ∧
    (∀ j, j < 2 →
      (finalTUI [.skipped, .ok, .failed "x", .ok, .ok, .ok, .ok]).status.getD j .pending =
      (if ([StepOutcome.skipped, .ok, .failed "x", .ok, .ok, .ok, .ok].get? j
          = some .skipped) then StepStatus.skipped else .done)) ∧
    (2 + 1 < numReleaseSteps →
      (finalTUI [.skipped, .ok, .failed "x", .ok, .ok, .ok, .ok]).status.getD (2 + 1) .pending
        = .error) ∧
    (∀ j, 2 + 1 < j → j < numReleaseSteps →
      (finalTUI [.skipped, .ok, .failed "x", .ok, .ok, .ok, .ok]).status.getD j .pending
        = .pending) :=
  tui_halt_spec [.skipped, .ok, .failed "x", .ok, .ok, .ok, .ok] 2 "x"
    rfl rfl (by decide)

end TUI

end Releasebot
